import Mathlib

/-!
# Verification of the `whquadtree` quad tree

Shallow embedding of the quad tree crate (files `src/lib.rs`, `src/index.rs`,
`src/point.rs`, `src/bucket.rs`) and proofs about its claims.

Modelling conventions:

* The scalar type `R32` (`noisy_float`'s finite `f32`, a totally ordered
  numeric type without NaN/Infinity) is modelled by exact dyadic rationals
  `Scalar` (every finite `f32` *is* a dyadic rational `m / 2 ^ e`).  All
  geometric operations (`middle`, `contains`, `get_quadrant`,
  `distance_squared_to`, ...) follow the source expression for expression;
  `f32` rounding is not modelled, and the overflow clamp in
  `distance_squared_to` (`R32::try_new` failing) has no counterpart because
  exact arithmetic never overflows.  None of the proved claims depends on
  rounding behaviour.  (`Scalar` is used instead of `ℚ` so that every
  operation reduces inside the kernel; `Rat` normalisation relies on
  `Nat.gcd`, which the kernel cannot evaluate.)
* `Index` (a `NonZeroU32`) is modelled as a raw `Nat` together with the
  explicit `% 2 ^ 32` wraps of its `u32` arithmetic.  `Index::child_at`, which
  panics via `NonZeroU32::new(..).unwrap()` when the shifted value truncates
  to `0`, is modelled by `Index.childAt?` returning `none` in exactly that
  case.  `to_idx` performs `u32` subtraction that cannot underflow on any
  tree-valid index (proved below); `Nat` truncated subtraction is used.
* `Vec<Bucket>` is modelled sparsely (`Items`): `resize_with` fills new slots
  with `Bucket::Owned(SmallVec::new())`, so a length plus a finite association
  list of the slots that differ from that default is an observationally
  faithful representation of the dense vector.
* `BTreeMap` is modelled as a list of key-value pairs sorted strictly by key
  (`SMap`); iteration in ascending key order matches `BTreeMap` iteration.
* Rust panics (`unwrap`, `panic!`, `unreachable!`, indexing out of bounds) and
  the potential divergence of the descent loops on corrupted states are
  modelled by `Option`: a result of `none` means the operation aborts without
  producing a new tree state.  The descent loops carry fuel
  `items.len + 1`, which is proved sufficient on well-formed states.
* The const generic bucket capacity `N` is a field `cap` of the tree value,
  and the generic value type `T` and identity type `ID` are instantiated with
  `Nat`, matching the crate's own fuzz harness (`u32` values and identities).
-/

set_option maxHeartbeats 1000000

namespace QTree

/-- The scalar type: an exact dyadic rational `m / 2 ^ e`.  The numerator is
not bounded and representations are not normalised; the quad tree code never
compares scalars for equality (only `<`, `>`, `≤`, `≥`), so the comparisons
below (by cross-multiplication) are all that is needed. -/
structure Scalar where
  m : ℤ
  e : Nat
deriving DecidableEq, Repr

namespace Scalar

/-- Addition, on the common power-of-two denominator. -/
def add (a b : Scalar) : Scalar :=
  ⟨a.m * 2 ^ (max a.e b.e - a.e) + b.m * 2 ^ (max a.e b.e - b.e), max a.e b.e⟩

/-- Negation. -/
def neg (a : Scalar) : Scalar := ⟨-a.m, a.e⟩

/-- Subtraction. -/
def sub (a b : Scalar) : Scalar := add a (neg b)

/-- Multiplication. -/
def mul (a b : Scalar) : Scalar := ⟨a.m * b.m, a.e + b.e⟩

/-- Division by the literal `2.0` — the only division the crate performs
(`Rect::middle`). -/
def half (a : Scalar) : Scalar := ⟨a.m, a.e + 1⟩

/-- `.powf(2.0)` of a finite value: the square. -/
def sq (a : Scalar) : Scalar := mul a a

instance : Add Scalar := ⟨add⟩
instance : Neg Scalar := ⟨neg⟩
instance : Sub Scalar := ⟨sub⟩
instance : Mul Scalar := ⟨mul⟩

instance (n : Nat) : OfNat Scalar n := ⟨⟨(n : ℤ), 0⟩⟩

instance : LT Scalar := ⟨fun a b => a.m * 2 ^ b.e < b.m * 2 ^ a.e⟩
instance : LE Scalar := ⟨fun a b => a.m * 2 ^ b.e ≤ b.m * 2 ^ a.e⟩

instance : DecidableRel (α := Scalar) (· < ·) := fun a b =>
  inferInstanceAs (Decidable (a.m * 2 ^ b.e < b.m * 2 ^ a.e))

instance : DecidableRel (α := Scalar) (· ≤ ·) := fun a b =>
  inferInstanceAs (Decidable (a.m * 2 ^ b.e ≤ b.m * 2 ^ a.e))

/-- Interpretation of a dyadic scalar in `ℚ` (used only inside proofs). -/
def toRat (a : Scalar) : ℚ := (a.m : ℚ) / 2 ^ a.e

end Scalar

/-- The four quadrant codes (`point.rs`), with their 2-bit encodings. -/
inductive Quadrant where
  | TopLeft
  | TopRight
  | BottomLeft
  | BottomRight
deriving DecidableEq, Repr

/-- `Quadrant as u32`: TopLeft = 0b00, TopRight = 0b01, BottomLeft = 0b10,
BottomRight = 0b11. -/
def Quadrant.toNat : Quadrant → Nat
  | .TopLeft => 0
  | .TopRight => 1
  | .BottomLeft => 2
  | .BottomRight => 3

/-- `Quadrant::all()`: the fixed iteration order TopLeft, TopRight, BottomLeft,
BottomRight. -/
def Quadrant.all : List Quadrant :=
  [.TopLeft, .TopRight, .BottomLeft, .BottomRight]

/-- `Quadrant::from_bits` (total on the four 2-bit values). -/
def Quadrant.fromBits (bits : Nat) : Quadrant :=
  if bits = 0 then .TopLeft
  else if bits = 1 then .TopRight
  else if bits = 2 then .BottomLeft
  else .BottomRight

/-- A 2D point (`point.rs`); coordinates are the `R32` scalar. -/
structure Point where
  x : Scalar
  y : Scalar
deriving DecidableEq, Repr

/-- `Point::distance_squared_to`.  The `f32` overflow clamp to
`R32::max_value()` is dead code over exact arithmetic. -/
def Point.distance_squared_to (self other : Point) : Scalar :=
  (self.x - other.x).sq + (self.y - other.y).sq

/-- `impl Add<R32> for Point`: offsets both coordinates. -/
def Point.addScalar (self : Point) (rhs : Scalar) : Point :=
  ⟨self.x + rhs, self.y + rhs⟩

/-- `impl Sub<R32> for Point`. -/
def Point.subScalar (self : Point) (rhs : Scalar) : Point :=
  ⟨self.x - rhs, self.y - rhs⟩

/-- `impl Neg for Point`. -/
def Point.neg (self : Point) : Point :=
  ⟨-self.x, -self.y⟩

/-- An axis-aligned rectangle (`point.rs`): stored as top, left, bottom,
right. -/
structure Rect where
  top : Scalar
  left : Scalar
  bottom : Scalar
  right : Scalar
deriving DecidableEq, Repr

/-- `Rect::new(top_left, bottom_right)`. -/
def Rect.new (top_left bottom_right : Point) : Rect :=
  ⟨top_left.y, top_left.x, bottom_right.y, bottom_right.x⟩

/-- `Rect::middle`. -/
def Rect.middle (self : Rect) : Point :=
  ⟨(self.left + self.right).half, (self.top + self.bottom).half⟩

/-- `Rect::contains`: the inclusive bounding test, written exactly as the
negated disjunction in the source. -/
def Rect.contains (self : Rect) (point : Point) : Bool :=
  !(decide (self.left > point.x) || decide (self.right < point.x) ||
    decide (self.top > point.y) || decide (self.bottom < point.y))

/-- `Rect::get_child_at`. -/
def Rect.get_child_at (self : Rect) (quadrant : Quadrant) : Rect :=
  let middle := self.middle
  match quadrant with
  | .TopLeft => ⟨self.top, self.left, middle.y, middle.x⟩
  | .BottomLeft => ⟨middle.y, self.left, self.bottom, middle.x⟩
  | .TopRight => ⟨self.top, middle.x, middle.y, self.right⟩
  | .BottomRight => ⟨middle.y, middle.x, self.bottom, self.right⟩

/-- `Rect::get_quadrant`: classify `point` against the midpoint (`<` goes to
the low quadrant, ties and `>` to the high one) and return the sub-rectangle
together with the quadrant. -/
def Rect.get_quadrant (self : Rect) (point : Point) : Rect × Quadrant :=
  let middle := self.middle
  let quadrant :=
    if point.x < middle.x then
      if point.y < middle.y then Quadrant.TopLeft else Quadrant.BottomLeft
    else if point.y < middle.y then Quadrant.TopRight
    else Quadrant.BottomRight
  (self.get_child_at quadrant, quadrant)

/-- `Rect::intersects`, written exactly as in the source: the negation of a
*conjunction* of overlap conditions (`point.rs` lines 170-175). -/
def Rect.intersects (self : Rect) (rect : Rect) : Bool :=
  !(decide (self.left < rect.right) && decide (self.right > rect.left) &&
    decide (self.top > rect.bottom) && decide (self.bottom < rect.top))

namespace Index

/-!
`Index` (`index.rs`) is a `NonZeroU32` holding a leading sentinel `1` bit
followed by two bits per level.  We keep the raw `u32` value as a `Nat`.
-/

/-- `Index::ROOT` = `0b1`. -/
def ROOT : Nat := 1

/-- Bit length computed by a fueled halving loop (fuel 32 covers every
`u32`); structural recursion keeps it kernel-reducible, unlike `Nat.log2`. -/
def bitLenAux : Nat → Nat → Nat
  | 0, _ => 0
  | fuel + 1, n => if n = 0 then 0 else bitLenAux fuel (n / 2) + 1

/-- The bit length of a `u32` value. -/
def bitLen (n : Nat) : Nat := bitLenAux 32 n

/-- `u32::leading_zeros` for a nonzero value. -/
def leadingZeros (n : Nat) : Nat := 32 - bitLen n

/-- `Index::to_idx`:
`let offset = 0xAAAA_AAAA & (u32::MAX >> self.0.leading_zeros());
 (self.0.get() - offset - 1) as usize`.
The two `u32` subtractions cannot underflow for any tree-valid index
(see `toIdx_measure` below); `Nat` truncated subtraction is used. -/
def toIdx (n : Nat) : Nat :=
  n - Nat.land 0xAAAAAAAA ((2 ^ 32 - 1) >>> leadingZeros n) - 1

/-- The raw `u32` value `(n << 2) | quadrant`, with the `u32` wrap made
explicit.  At depth 15 the shift silently discards the sentinel bit. -/
def childAtRaw (n : Nat) (quadrant : Quadrant) : Nat :=
  Nat.lor ((n <<< 2) % 2 ^ 32) quadrant.toNat

/-- `Index::child_at`: `Index(NonZeroU32::new((self.0.get() << 2) | quadrant as
u32).unwrap())`.  The `unwrap` panics exactly when the wrapped value is `0`
(which happens for `n = 2^30` and quadrant TopLeft); that panic is `none`. -/
def childAt? (n : Nat) (quadrant : Quadrant) : Option Nat :=
  let m := childAtRaw n quadrant
  if m = 0 then none else some m

/-- `Index::parent`: shift right by two, `None` at the root. -/
def parent? (n : Nat) : Option Nat :=
  if n >>> 2 = 0 then none else some (n >>> 2)

/-- `Index::children`: the four children built from `n << 2`, or `None` when
the index is at depth 15 (`n >= 0b01 << 30`), preventing the shift from
overflowing. -/
def children? (n : Nat) : Option (List Nat) :=
  if n ≥ 2 ^ 30 then none
  else
    some [childAtRaw n .TopLeft, childAtRaw n .TopRight,
          childAtRaw n .BottomLeft, childAtRaw n .BottomRight]

/-- The quadrant path of an index, root first.  Agrees with the source's
`iter_from_root` bit reader on every tree-valid index (leading `1` bit
followed by 2 bits per level). -/
def pathFromRootAux : Nat → Nat → List Quadrant
  | 0, _ => []
  | fuel + 1, n =>
      if n ≤ 1 then []
      else pathFromRootAux fuel (n >>> 2) ++ [Quadrant.fromBits (n % 4)]

/-- The quadrant path (fuel 32 covers every `u32` value). -/
def pathFromRoot (n : Nat) : List Quadrant := pathFromRootAux 32 n

/-- Validity of a raw index value: some depth `d ≤ 15` with the sentinel bit
at position `2 d`. -/
def Valid (n : Nat) : Prop := ∃ d : Nat, d ≤ 15 ∧ 4 ^ d ≤ n ∧ n < 2 * 4 ^ d

instance : DecidablePred Valid := fun n =>
  decidable_of_iff (∃ d : Nat, d < 16 ∧ 4 ^ d ≤ n ∧ n < 2 * 4 ^ d)
    (by
      constructor
      · rintro ⟨d, h1, h2, h3⟩; exact ⟨d, by omega, h2, h3⟩
      · rintro ⟨d, h1, h2, h3⟩; exact ⟨d, by omega, h2, h3⟩)

/-- The depth of a valid index. -/
def depth (n : Nat) : Nat := (bitLen n - 1) / 2

end Index

/-- `Rect::get_index_rect`: fold the quadrant subdivision along the index's
path from the root. -/
def Rect.get_index_rect (self : Rect) (index : Nat) : Rect :=
  (Index.pathFromRoot index).foldl Rect.get_child_at self

end QTree

namespace QTree

/-- `IdentityPoint<ID>` (`bucket.rs`) with `ID` instantiated at `Nat`. -/
structure IdentityPoint where
  identity : Nat
  point : Point
deriving DecidableEq, Repr

/-- One stored entry `(IdentityPoint, T)` with the value type `T`
instantiated at `Nat`. -/
abbrev Entry := IdentityPoint × Nat

/-- `Bucket<T, ID, N>` (`bucket.rs`): either a routing marker or a leaf
holding entries directly. -/
inductive Bucket where
  | Nested
  | Owned (entries : List Entry)
deriving DecidableEq, Repr

/-- `OwnedMut::remove_by_identity`: position of the first entry with the
identity, removed by `SmallVec::remove` (ordered removal); returns the value.
The `unwrap` on a missing identity is a panic, modelled as `none`. -/
def removeByIdentity (l : List Entry) (identity : Nat) :
    Option (Nat × List Entry) :=
  match l.findIdx? (fun e => e.1.identity == identity) with
  | some n => some ((l.get? n).map Prod.snd |>.getD 0, l.eraseIdx n)
  | none => none

/-- `OwnedMut::requires_split` (`bucket.rs`): full bucket whose remaining
points (plus the optional incoming one) do not all share the first point's
quadrant pair. -/
def requiresSplit (cap : Nat) (l : List Entry) (rect : Rect)
    (point_to_add : Option Point) : Bool :=
  if l.length < cap then false
  else
    match l with
    | [] => false
    | first :: remaining =>
        let quadrant := rect.get_quadrant first.1.point
        !((remaining.map (fun e => e.1.point) ++ point_to_add.toList).all
            (fun point => rect.get_quadrant point == quadrant))

/-- A `BTreeMap<Nat, β>`: a key-value list kept sorted strictly by key. -/
abbrev SMap (β : Type) := List (Nat × β)

/-- Map lookup. -/
def SMap.find? {β : Type} (m : SMap β) (k : Nat) : Option β :=
  (List.find? (fun e => e.1 == k) m).map Prod.snd

/-- Map insertion, replacing any existing binding and keeping the list
sorted. -/
def SMap.insert {β : Type} (m : SMap β) (k : Nat) (v : β) : SMap β :=
  match m with
  | [] => [(k, v)]
  | (k₁, v₁) :: t =>
      if k < k₁ then (k, v) :: (k₁, v₁) :: t
      else if k = k₁ then (k, v) :: t
      else (k₁, v₁) :: SMap.insert t k v

/-- Map removal of a key. -/
def SMap.erase {β : Type} (m : SMap β) (k : Nat) : SMap β :=
  m.filter (fun e => !(e.1 == k))

/-- Strictly-ascending key order (the `BTreeMap` representation invariant). -/
def SMap.Sorted {β : Type} (m : SMap β) : Prop :=
  m.Chain' (fun a b => a.1 < b.1)

/-- The flat storage `Vec<Bucket>`, modelled sparsely: `len` plus the
association list of slots differing from the `resize_with` default
`Bucket::Owned(SmallVec::new())`. -/
structure Items where
  len : Nat
  data : List (Nat × Bucket)
deriving DecidableEq, Repr

/-- Read slot `pos` (`Vec::get` semantics): `none` beyond `len`, the default
empty `Owned` bucket for in-range slots not in `data`. -/
def Items.read (it : Items) (pos : Nat) : Option Bucket :=
  if pos < it.len then
    some ((((List.find? (fun e => e.1 == pos) it.data)).map Prod.snd).getD
      (Bucket.Owned []))
  else none

/-- Overwrite slot `pos` (callers only use `pos < len`). -/
def Items.write (it : Items) (pos : Nat) (b : Bucket) : Items :=
  ⟨it.len, (pos, b) :: it.data.filter (fun e => !(e.1 == pos))⟩

/-- `Vec::resize_with(n, || Bucket::Owned(SmallVec::new()))` for `n ≥ len`:
grow, filling with the default. -/
def Items.resizeTo (it : Items) (n : Nat) : Items :=
  ⟨n, it.data⟩

/-- `Vec::pop` of the last slot (callers pop only trailing `Nested` slots). -/
def Items.pop (it : Items) : Items :=
  ⟨it.len - 1, it.data.filter (fun e => !(e.1 == it.len - 1))⟩

/-- The quad tree state (`lib.rs`).  `cap` models the const generic `N`. -/
structure QuadTree where
  cap : Nat
  rect : Rect
  items : Items
  outside_of_range : SMap (Nat × Point)
  identity_to_point : SMap (Point × Option Nat)
deriving DecidableEq, Repr

/-- `QuadTree::new`: one root `Owned(SmallVec::new_const())` bucket, empty
side maps. -/
def QuadTree.new (cap : Nat) (top_left bottom_right : Point) : QuadTree :=
  ⟨cap, Rect.new top_left bottom_right, ⟨1, []⟩, [], []⟩

/-- `QuadTree::sized_around_origin`. -/
def QuadTree.sized_around_origin (cap : Nat) (size : Point) : QuadTree :=
  QuadTree.new cap size.neg size

/-- `ensure_index_valid` (`lib.rs`): if the index has a parent, resize the
vec so that the BottomRight sibling's slot exists (filling with default
`Owned` buckets).  `child_at(BottomRight)` cannot hit the `unwrap` panic
because the low bits `0b11` keep the wrapped value nonzero. -/
def ensureIndexValid (items : Items) (index : Nat) : Items :=
  match Index.parent? index with
  | some p =>
      let newMax := Index.toIdx (Index.childAtRaw p Quadrant.BottomRight)
      if items.len ≤ newMax then items.resizeTo (newMax + 1) else items
  | none => items

/-- The descent loop shared by `find_bucket_mut`, `split`'s redistribution
loop and `split`'s final loop: ensure the slot exists, stop at the first
`Owned` bucket, follow the point's quadrant through `Nested` buckets.
`fuel` bounds the number of iterations (`none` models the panics/divergence
possible on corrupted states: a `get_unchecked` past a wrapped index or the
`child_at` unwrap). -/
def findOwnedAux (fuel : Nat) (items : Items) (rect : Rect) (index : Nat)
    (point : Point) : Option (Items × Rect × Nat) :=
  match fuel with
  | 0 => none
  | fuel + 1 =>
    let items := ensureIndexValid items index
    match items.read (Index.toIdx index) with
    | some (Bucket.Owned _) => some (items, rect, index)
    | some Bucket.Nested =>
        let rq := rect.get_quadrant point
        match Index.childAt? index rq.2 with
        | some c => findOwnedAux fuel items rq.1 c point
        | none => none
    | none => none

/-- The descent loop with its fuel instantiated at entry; `items.len + 1`
iterations always suffice on well-formed states (each iteration visits a
`Nested` slot at a strictly larger position). -/
def findOwned (items : Items) (rect : Rect) (index : Nat) (point : Point) :
    Option (Items × Rect × Nat) :=
  findOwnedAux (items.len + 1) items rect index point

/-- The redistribution loop of `split`: move each entry of the vacated bucket
into the first `Owned` bucket on its quadrant path below `index`, recording
the new location in the identity index. -/
def redistribute (items : Items) (id2pt : SMap (Point × Option Nat))
    (rect : Rect) (index : Nat) :
    List Entry → Option (Items × SMap (Point × Option Nat))
  | [] => some (items, id2pt)
  | (ip, value) :: rest =>
      let rq := rect.get_quadrant ip.point
      match Index.childAt? index rq.2 with
      | none => none
      | some c =>
        match findOwned items rq.1 c ip.point with
        | none => none
        | some (items, _, fidx) =>
          match items.read (Index.toIdx fidx) with
          | some (Bucket.Owned l) =>
              redistribute
                (items.write (Index.toIdx fidx) (Bucket.Owned (l ++ [(ip, value)])))
                (id2pt.insert ip.identity (ip.point, some fidx))
                rect index rest
          | _ => none

/-- `QuadTree::split` (`lib.rs` 299-366).  `rect` is the rectangle the caller
associates with the bucket at `index`.  Returns the updated storage and
identity index together with the index of the bucket that should receive the
incoming point.  The overflow case (all points share the incoming point's
quadrant) returns the bucket unchanged.  Note the final descent re-uses the
*parent* rectangle, exactly as the source's `let mut rect = rect;` does. -/
def split (items : Items) (id2pt : SMap (Point × Option Nat)) (rect : Rect)
    (index : Nat) (point : Point) :
    Option (Items × SMap (Point × Option Nat) × Nat) :=
  let new_item_quadrant := (rect.get_quadrant point).2
  match items.read (Index.toIdx index) with
  | some (Bucket.Owned l) =>
    if l.all (fun e => (rect.get_quadrant e.1.point).2 == new_item_quadrant) then
      some (items, id2pt, index)
    else
      match Index.childAt? index new_item_quadrant with
      | none => none
      | some c0 =>
        let items := ensureIndexValid items c0
        let items := items.write (Index.toIdx index) Bucket.Nested
        match redistribute items id2pt rect index l with
        | none => none
        | some (items, id2pt) =>
          match Index.childAt? index new_item_quadrant with
          | none => none
          | some c1 =>
            match findOwned items rect c1 point with
            | none => none
            | some (items, _, fidx) => some (items, id2pt, fidx)
  | _ => none

/-- `find_bucket_mut` with `require_resize = true` and the `insert` callback
(push the entry, return the index). -/
def findBucketInsert (cap : Nat) (items : Items)
    (id2pt : SMap (Point × Option Nat)) (rect : Rect) (point : Point)
    (entry : Entry) : Option (Items × SMap (Point × Option Nat) × Nat) :=
  match findOwned items rect Index.ROOT point with
  | none => none
  | some (items, rect, index) =>
    match items.read (Index.toIdx index) with
    | some (Bucket.Owned l) =>
      if l.length < cap then
        some (items.write (Index.toIdx index) (Bucket.Owned (l ++ [entry])),
          id2pt, index)
      else
        match split items id2pt rect index point with
        | none => none
        | some (items, id2pt, index) =>
          match items.read (Index.toIdx index) with
          | some (Bucket.Owned l) =>
            some (items.write (Index.toIdx index) (Bucket.Owned (l ++ [entry])),
              id2pt, index)
          | _ => none
    | _ => none

end QTree

namespace QTree

/-- Phases 2-3 of `QuadTree::update_inner`: remove the value from its old
location (`remove_by_identity` or the out-of-range map), then re-insert it at
`new_index` (splitting first when the target bucket requires it) or into the
out-of-range map.  The callback (`vf` on the value, identity on the index) is
applied exactly once, before the push. -/
def updateInnerSlow (s : QuadTree) (identity : Nat) (new_point : Point)
    (old_index : Option Nat) (vf : Nat → Nat) (new_index : Option Nat) :
    Option (QuadTree × Option Nat) :=
  match
    (match old_index with
     | some idx =>
        match s.items.read (Index.toIdx idx) with
        | some (Bucket.Owned l) =>
          match removeByIdentity l identity with
          | some (v, l2) =>
              some (v, { s with items := s.items.write (Index.toIdx idx) (Bucket.Owned l2) })
          | none => none
        | _ => none
     | none =>
        match s.outside_of_range.find? identity with
        | some (v, _) =>
            some (v, { s with outside_of_range := s.outside_of_range.erase identity })
        | none => none)
  with
  | none => none
  | some (value, s1) =>
    match new_index with
    | some index =>
      match s1.items.read (Index.toIdx index) with
      | some (Bucket.Owned l) =>
        if requiresSplit s1.cap l (s1.rect.get_index_rect index) (some new_point) then
          match split s1.items s1.identity_to_point s1.rect index new_point with
          | none => none
          | some (items2, id2pt2, ni) =>
            match items2.read (Index.toIdx ni) with
            | some (Bucket.Owned l2) =>
              some ({ s1 with
                        items := items2.write (Index.toIdx ni)
                          (Bucket.Owned (l2 ++ [(⟨identity, new_point⟩, vf value)])),
                        identity_to_point := id2pt2 }, some ni)
            | _ => none
        else
          some ({ s1 with
                    items := s1.items.write (Index.toIdx index)
                      (Bucket.Owned (l ++ [(⟨identity, new_point⟩, vf value)])) },
            some index)
      | _ => none
    | none =>
      some ({ s1 with
                outside_of_range :=
                  s1.outside_of_range.insert identity (vf value, new_point) }, none)

/-- `QuadTree::update_inner` (`lib.rs` 186-264), specialised to the shape all
three call sites share: the callback transforms the stored value with `vf` and
returns the new index unchanged.  Phase 1 redescends with the new point
(`require_resize = false`, hence no split); when the bucket found is the old
one and still holds the identity, the entry is updated in place (the early
`return`, `Sum.inl`).  Otherwise execution continues with `updateInnerSlow`
on the phase-1 items (growth from `ensure_index_valid` persists). -/
def updateInner (s : QuadTree) (identity : Nat) (new_point : Point)
    (old_index : Option Nat) (vf : Nat → Nat) :
    Option (QuadTree × Option Nat) :=
  match
    (if s.rect.contains new_point then
      match findOwned s.items s.rect Index.ROOT new_point with
      | none => none
      | some (items1, _, idx) =>
        if some idx = old_index then
          match items1.read (Index.toIdx idx) with
          | some (Bucket.Owned l) =>
            match l.findIdx? (fun e => e.1.identity == identity) with
            | some n =>
              match l.get? n with
              | some (ip, t) =>
                let l2 := l.set n (⟨ip.identity, new_point⟩, vf t)
                let items2 := items1.write (Index.toIdx idx) (Bucket.Owned l2)
                some (Sum.inl ({ s with items := items2 }, some idx))
              | none => none
            | none => some (Sum.inr ({ s with items := items1 }, some idx))
          | _ => none
        else some (Sum.inr ({ s with items := items1 }, some idx))
    else some (Sum.inr (s, none)))
  with
  | none => none
  | some (Sum.inl done) => some done
  | some (Sum.inr (s1, new_index)) =>
      updateInnerSlow s1 identity new_point old_index vf new_index

/-- `QuadTree::insert` (`lib.rs` 62-97). -/
def QuadTree.insert (s : QuadTree) (point : IdentityPoint) (value : Nat) :
    Option QuadTree :=
  match s.identity_to_point.find? point.identity with
  | some (_, old_index) =>
    let s1 := { s with identity_to_point := s.identity_to_point.erase point.identity }
    match updateInner s1 point.identity point.point old_index (fun _ => value) with
    | none => none
    | some (s2, new_index) =>
        some { s2 with identity_to_point :=
                 s2.identity_to_point.insert point.identity (point.point, new_index) }
  | none =>
    if !(s.rect.contains point.point) then
      some { s with
               outside_of_range :=
                 s.outside_of_range.insert point.identity (value, point.point),
               identity_to_point :=
                 s.identity_to_point.insert point.identity (point.point, none) }
    else
      match findBucketInsert s.cap s.items s.identity_to_point s.rect point.point
          (point, value) with
      | none => none
      | some (items, id2pt, index) =>
          let id2pt2 := id2pt.insert point.identity (point.point, some index)
          some { s with items := items, identity_to_point := id2pt2 }

/-- `QuadTree::update` (`lib.rs` 102-110): `false` when the identity is
unknown, otherwise relocate and return `true`. -/
def QuadTree.update (s : QuadTree) (identity : Nat) (point : Point) :
    Option (QuadTree × Bool) :=
  match s.identity_to_point.find? identity with
  | some (_, maybe_index) =>
    let s1 := { s with identity_to_point := s.identity_to_point.erase identity }
    match updateInner s1 identity point maybe_index (fun v => v) with
    | none => none
    | some (s2, new_idx) =>
        some ({ s2 with identity_to_point :=
                  s2.identity_to_point.insert identity (point, new_idx) }, true)
  | none => some (s, false)

/-- `QuadTree::update_point_and_value` (`lib.rs` 115-131); the value callback
is modelled as a function `Nat → Nat`. -/
def QuadTree.update_point_and_value (s : QuadTree) (identity : Nat)
    (point : Point) (callback : Nat → Nat) : Option (QuadTree × Bool) :=
  match s.identity_to_point.find? identity with
  | some (_, maybe_index) =>
    let s1 := { s with identity_to_point := s.identity_to_point.erase identity }
    match updateInner s1 identity point maybe_index callback with
    | none => none
    | some (s2, new_idx) =>
        some ({ s2 with identity_to_point :=
                  s2.identity_to_point.insert identity (point, new_idx) }, true)
  | none => some (s, false)

/-- The children sum of `try_merge`: `Owned` children contribute their length,
`Nested` ones the sentinel `N + 1`; `none` models the panic of indexing a
child slot that is out of bounds. -/
def mergeSum (items : Items) (cap : Nat) : List Nat → Option Nat
  | [] => some 0
  | c :: rest =>
      match items.read (Index.toIdx c) with
      | some (Bucket.Owned l) => (mergeSum items cap rest).map (l.length + ·)
      | some Bucket.Nested => (mergeSum items cap rest).map (cap + 1 + ·)
      | none => none

/-- The collapse loop of `try_merge`: vacate each child (`Nested`), record
every moved entry's new location (the parent), and accumulate the moved
entries in child order. -/
def mergeChildren (items : Items) (id2pt : SMap (Point × Option Nat))
    (index : Nat) (acc : List Entry) :
    List Nat → Option (Items × SMap (Point × Option Nat) × List Entry)
  | [] => some (items, id2pt, acc)
  | c :: rest =>
      match items.read (Index.toIdx c) with
      | some (Bucket.Owned l) =>
          mergeChildren (items.write (Index.toIdx c) Bucket.Nested)
            (l.foldl (fun m e => m.insert e.1.identity (e.1.point, some index)) id2pt)
            index (acc ++ l) rest
      | _ => none

/-- The trailing-`Nested` pop loop of `try_merge` (each pop shrinks `len`,
so `len` iterations of fuel always suffice). -/
def popLoopAux : Nat → Items → Items
  | 0, items => items
  | fuel + 1, items =>
      if 1 < items.len ∧ items.read (items.len - 1) = some Bucket.Nested then
        popLoopAux fuel items.pop
      else items

/-- The trailing-`Nested` pop loop of `try_merge`. -/
def popLoop (items : Items) : Items := popLoopAux items.len items

/-- `QuadTree::try_merge` (`lib.rs` 368-394). -/
def tryMerge (s : QuadTree) (index : Nat) : Option QuadTree :=
  match Index.children? index with
  | none => some s
  | some children =>
    match mergeSum s.items s.cap children with
    | none => none
    | some sum =>
      if sum ≤ s.cap then
        match mergeChildren s.items s.identity_to_point index [] children with
        | none => none
        | some (items, id2pt, parentEntries) =>
            some { s with
                     items := popLoop (items.write (Index.toIdx index)
                       (Bucket.Owned parentEntries)),
                     identity_to_point := id2pt }
      else some s

/-- `QuadTree::try_remove` (`lib.rs` 145-159). -/
def QuadTree.try_remove (s : QuadTree) (identity : Nat) :
    Option (QuadTree × Option (Nat × Point)) :=
  match s.identity_to_point.find? identity with
  | none => some (s, none)
  | some (point, index) =>
    let s1 := { s with identity_to_point := s.identity_to_point.erase identity }
    match index with
    | some index =>
      match s1.items.read (Index.toIdx index) with
      | some (Bucket.Owned l) =>
        match removeByIdentity l identity with
        | none => none
        | some (v, l2) =>
          let s2 := { s1 with items := s1.items.write (Index.toIdx index) (Bucket.Owned l2) }
          match Index.parent? index with
          | some parent =>
              (tryMerge s2 parent).map (fun s3 => (s3, some (v, point)))
          | none => some (s2, some (v, point))
      | _ => none
    | none =>
      match s1.outside_of_range.find? identity with
      | some (v, p) =>
          some ({ s1 with outside_of_range := s1.outside_of_range.erase identity },
            some (v, p))
      | none => some (s1, none)

end QTree

namespace QTree

/-- `FindRangeCtx` (`lib.rs` 426-446). -/
structure FindRangeCtx where
  center : Point
  range_squared : Scalar
  full_rect : Rect
deriving DecidableEq, Repr

/-- `FindRangeCtx::new`: squared range and the bounding square
`[center - range, center + range]`. -/
def FindRangeCtx.new (center : Point) (range : Scalar) : FindRangeCtx :=
  ⟨center, range * range, Rect.new (center.subScalar range) (center.addScalar range)⟩

/-- `FindRangeCtx::contains_rect`. -/
def FindRangeCtx.contains_rect (ctx : FindRangeCtx) (rect : Rect) : Bool :=
  ctx.full_rect.intersects rect

/-- `FindRangeCtx::point_in_range`. -/
def FindRangeCtx.point_in_range (ctx : FindRangeCtx) (point : Point) : Bool :=
  decide (ctx.center.distance_squared_to point ≤ ctx.range_squared)

/-- One callback invocation of `find_range`, as observable data:
`(identity, point, value)`. -/
abbrev Found := Nat × Point × Nat

/-- `QuadTree::find_range_inner` (`lib.rs` 396-423), with the callback
invocations collected in order.  Prune when the context's bounding square
does not `intersect` the node rectangle; scan `Owned` buckets; recurse into
the four children in `Quadrant::all()` order.  `none` models the `child_at`
unwrap panic and stack exhaustion on corrupted states. -/
def findRangeInner (fuel : Nat) (items : Items) (rect : Rect) (index : Nat)
    (ctx : FindRangeCtx) : Option (List Found) :=
  match fuel with
  | 0 => none
  | fuel + 1 =>
    if !(ctx.contains_rect rect) then some []
    else
      match items.read (Index.toIdx index) with
      | some (Bucket.Owned l) =>
          some (l.filterMap (fun e =>
            if ctx.point_in_range e.1.point then
              some (e.1.identity, e.1.point, e.2)
            else none))
      | some Bucket.Nested =>
          Quadrant.all.foldl (fun acc child =>
            acc.bind (fun res =>
              match Index.childAt? index child with
              | some c =>
                  (findRangeInner fuel items (rect.get_child_at child) c ctx).map
                    (fun r => res ++ r)
              | none => none)) (some [])
      | none => some []

/-- `QuadTree::find_range` (`lib.rs` 164-179): the pruned descent from the
root followed by the linear scan of `outside_of_range` (in ascending identity
order, since `BTreeMap` iterates in key order). -/
def QuadTree.find_range (s : QuadTree) (center : Point) (range : Scalar) :
    Option (List Found) :=
  let ctx := FindRangeCtx.new center range
  match findRangeInner (s.items.len + 1) s.items s.rect Index.ROOT ctx with
  | none => none
  | some res =>
      some (res ++ s.outside_of_range.filterMap (fun e =>
        if ctx.point_in_range e.2.2 then some (e.1, e.2.2, e.2.1) else none))

/-!
## The fuzz harness (`fuzz/fuzz_targets/fuzz_target_1.rs`)

The crate's differential oracle runs every instruction against the tree and
against a naive flat list of `(identity, point, value)` records, comparing
removal results and (identity-sorted) range query results.
-/

/-- The fuzz harness instruction set. -/
inductive Instruction where
  | insert (identity : Nat) (x y : Scalar) (value : Nat)
  | update (identity : Nat) (x y : Scalar)
  | updateValue (identity : Nat) (x y : Scalar) (value : Nat)
  | remove (identity : Nat)
  | findRange (x y range : Scalar)
deriving DecidableEq, Repr

/-- Observable outcome of one instruction (removal result, or the
identity-sorted range query result). -/
inductive Obs where
  | removed (result : Option (Nat × Point))
  | found (result : List Found)
deriving DecidableEq, Repr

/-- Stable insertion into an identity-sorted list. -/
def insertByIdentity (e : Found) : List Found → List Found
  | [] => [e]
  | f :: t => if e.1 ≤ f.1 then e :: f :: t else f :: insertByIdentity e t

/-- `sort_by_key(identity)` of the fuzz harness. -/
def sortByIdentity (l : List Found) : List Found :=
  l.foldr insertByIdentity []

/-- One instruction against the tree (`Instruction::execute`, tree side).
`none` propagates a tree panic. -/
def stepTree (s : QuadTree) : Instruction → Option (QuadTree × Option Obs)
  | .insert identity x y value =>
      (s.insert ⟨identity, ⟨x, y⟩⟩ value).map (fun s2 => (s2, none))
  | .update identity x y =>
      (s.update identity ⟨x, y⟩).map (fun r => (r.1, none))
  | .updateValue identity x y value =>
      (s.update_point_and_value identity ⟨x, y⟩ (fun _ => value)).map
        (fun r => (r.1, none))
  | .remove identity =>
      (s.try_remove identity).map (fun r => (r.1, some (Obs.removed r.2)))
  | .findRange x y range =>
      (s.find_range ⟨x, y⟩ range).map
        (fun l => (s, some (Obs.found (sortByIdentity l))))

/-- Run a whole instruction list against the tree, collecting observations;
`none` as soon as any instruction panics. -/
def execTree (s : QuadTree) : List Instruction → Option (QuadTree × List Obs)
  | [] => some (s, [])
  | i :: rest =>
      match stepTree s i with
      | none => none
      | some (s2, obs) =>
          (execTree s2 rest).map (fun r => (r.1, obs.toList ++ r.2))

/-- The naive flat store of the fuzz harness. -/
abbrev Flat := List Found

/-- Point update of the first record with the identity (fuzz harness
`Update`). -/
def flatSetPoint (identity : Nat) (p : Point) : Flat → Flat
  | [] => []
  | e :: t =>
      if e.1 == identity then (e.1, p, e.2.2) :: t
      else e :: flatSetPoint identity p t

/-- Point and value update of the first record with the identity (fuzz
harness `UpdateValue`). -/
def flatSetPointValue (identity : Nat) (p : Point) (v : Nat) : Flat → Flat
  | [] => []
  | e :: t =>
      if e.1 == identity then (e.1, p, v) :: t
      else e :: flatSetPointValue identity p v t

/-- One instruction against the naive flat list (`Instruction::execute`, flat
side).  Total: the naive model never panics. -/
def stepFlat (flat : Flat) : Instruction → Flat × Option Obs
  | .insert identity x y value =>
      (flat.filter (fun e => !(e.1 == identity)) ++ [(identity, ⟨x, y⟩, value)],
        none)
  | .update identity x y => (flatSetPoint identity ⟨x, y⟩ flat, none)
  | .updateValue identity x y value =>
      (flatSetPointValue identity ⟨x, y⟩ value flat, none)
  | .remove identity =>
      match List.find? (fun e => e.1 == identity) flat with
      | some (_, p, v) =>
          (flat.eraseP (fun e => e.1 == identity), some (Obs.removed (some (v, p))))
      | none => (flat, some (Obs.removed none))
  | .findRange x y range =>
      (flat, some (Obs.found (sortByIdentity (flat.filterMap (fun e =>
        if decide ((Point.mk x y).distance_squared_to e.2.1 ≤ range * range) then
          some e
        else none)))))

/-- Run a whole instruction list against the naive flat list. -/
def execFlat (flat : Flat) : List Instruction → Flat × List Obs
  | [] => (flat, [])
  | i :: rest =>
      let r := stepFlat flat i
      let r2 := execFlat r.1 rest
      (r2.1, r.2.toList ++ r2.2)

end QTree

namespace QTree

/-! ## Transfer of the dyadic scalar order and arithmetic into `ℚ` -/

theorem Scalar.toRat_lt {a b : Scalar} : a < b ↔ a.toRat < b.toRat := by
  show a.m * 2 ^ b.e < b.m * 2 ^ a.e ↔ _
  rw [toRat, toRat, div_lt_div_iff₀ (by positivity) (by positivity)]
  exact_mod_cast Iff.rfl

theorem Scalar.toRat_le {a b : Scalar} : a ≤ b ↔ a.toRat ≤ b.toRat := by
  show a.m * 2 ^ b.e ≤ b.m * 2 ^ a.e ↔ _
  rw [toRat, toRat, div_le_div_iff₀ (by positivity) (by positivity)]
  exact_mod_cast Iff.rfl

theorem Scalar.toRat_add (a b : Scalar) : (a + b).toRat = a.toRat + b.toRat := by
  show ((a.m * 2 ^ (max a.e b.e - a.e) + b.m * 2 ^ (max a.e b.e - b.e) : ℤ) : ℚ) /
      2 ^ max a.e b.e = a.toRat + b.toRat
  have h1 : ((2 : ℚ) ^ a.e) ≠ 0 := by positivity
  have h2 : ((2 : ℚ) ^ b.e) ≠ 0 := by positivity
  have h3 : ((2 : ℚ) ^ max a.e b.e) ≠ 0 := by positivity
  rw [toRat, toRat, div_add_div _ _ h1 h2, div_eq_div_iff h3 (by positivity)]
  push_cast
  have e1 : (2 : ℚ) ^ (max a.e b.e - a.e) * 2 ^ a.e = 2 ^ max a.e b.e := by
    rw [← pow_add]; congr 1; omega
  have e2 : (2 : ℚ) ^ (max a.e b.e - b.e) * 2 ^ b.e = 2 ^ max a.e b.e := by
    rw [← pow_add]; congr 1; omega
  calc ((a.m : ℚ) * 2 ^ (max a.e b.e - a.e) + (b.m : ℚ) * 2 ^ (max a.e b.e - b.e)) *
        (2 ^ a.e * 2 ^ b.e)
      = ((a.m : ℚ) * (2 ^ (max a.e b.e - a.e) * 2 ^ a.e)) * 2 ^ b.e +
        ((b.m : ℚ) * (2 ^ (max a.e b.e - b.e) * 2 ^ b.e)) * 2 ^ a.e := by ring
    _ = ((a.m : ℚ) * 2 ^ b.e + 2 ^ a.e * (b.m : ℚ)) * 2 ^ max a.e b.e := by
        rw [e1, e2]; ring

theorem Scalar.toRat_neg (a : Scalar) : (-a).toRat = -a.toRat := by
  show ((-a.m : ℤ) : ℚ) / 2 ^ a.e = -(((a.m : ℤ) : ℚ) / 2 ^ a.e)
  push_cast
  ring

theorem Scalar.toRat_sub (a b : Scalar) : (a - b).toRat = a.toRat - b.toRat := by
  show (Scalar.add a (Scalar.neg b)).toRat = _
  have : Scalar.add a (Scalar.neg b) = a + (-b) := rfl
  rw [this, Scalar.toRat_add, Scalar.toRat_neg]
  ring

theorem Scalar.toRat_mul (a b : Scalar) : (a * b).toRat = a.toRat * b.toRat := by
  show ((a.m * b.m : ℤ) : ℚ) / 2 ^ (a.e + b.e) = _
  rw [toRat, toRat]
  push_cast
  rw [pow_add]
  field_simp

theorem Scalar.toRat_half (a : Scalar) : a.half.toRat = a.toRat / 2 := by
  show ((a.m : ℤ) : ℚ) / 2 ^ (a.e + 1) = ((a.m : ℤ) : ℚ) / 2 ^ a.e / 2
  rw [pow_succ, ← div_div]

theorem Scalar.toRat_sq (a : Scalar) : a.sq.toRat = a.toRat * a.toRat :=
  Scalar.toRat_mul a a

theorem Scalar.toRat_ofNat (n : Nat) :
    (no_index (OfNat.ofNat n) : Scalar).toRat = n := by
  show ((n : ℤ) : ℚ) / 2 ^ 0 = n
  simp

end QTree

namespace QTree

/-! ## Concrete scenarios used by several claims -/

/-- A 17-insert sequence on a capacity-1 tree over `[0,1]²`: identity 0 at the
origin, then for `k = 0..14` identity `k+1` at `(3·2^-(k+2), 3·2^-(k+2))`
(same cell as the origin down to depth `k`, different quadrant at depth `k`,
so each insert splits the origin's bucket one level deeper), and finally
identity 16 at `(3·2^-17, 3·2^-17)`, which reaches the origin's bucket at
depth 15 (raw index `2^30`) and forces a split there.  All coordinates are
exactly representable `f32` values. -/
def deepOps : List Instruction :=
  (Instruction.insert 0 ⟨0, 0⟩ ⟨0, 0⟩ 0) ::
  ((List.range 15).map (fun k =>
    Instruction.insert (k + 1) ⟨3, k + 2⟩ ⟨3, k + 2⟩ 0)) ++
  [Instruction.insert 16 ⟨3, 17⟩ ⟨3, 17⟩ 0]

/-- The capacity-1 tree over `[0,1]²` the sequence starts from. -/
def deepTree : QuadTree := QuadTree.new 1 ⟨0, 0⟩ ⟨1, 1⟩

/-! ## Claim C4 -/

/-- **C4** (code bug): the claim says `Rect::intersects` returns `false`
exactly for non-overlapping rectangles, so that `find_range` prunes disjoint
subtrees.  In fact the source negates a *conjunction* whose two `y`
conditions are mutually exclusive for well-formed rectangles, so `intersects`
returns `true` for every pair of rectangles with `top ≤ bottom` — in
particular for the concrete disjoint pair `[0,1]²`, `[5,6]²` — and
`find_range` never prunes anything. -/
theorem claim_C4_intersects_never_prunes :
    (∀ a b : Rect, a.top ≤ a.bottom → b.top ≤ b.bottom → a.intersects b = true) ∧
    ((Rect.new ⟨0, 0⟩ ⟨1, 1⟩).intersects (Rect.new ⟨5, 5⟩ ⟨6, 6⟩) = true ∧
      (Rect.new ⟨0, 0⟩ ⟨1, 1⟩).right < (Rect.new ⟨5, 5⟩ ⟨6, 6⟩).left) := by
  constructor
  · intro a b ha hb
    unfold Rect.intersects
    by_cases hc : a.top > b.bottom
    · by_cases hd : a.bottom < b.top
      · exfalso
        rw [gt_iff_lt, Scalar.toRat_lt] at hc
        rw [Scalar.toRat_lt] at hd
        rw [Scalar.toRat_le] at ha hb
        linarith
      · have h0 : decide (a.bottom < b.top) = false := decide_eq_false hd
        simp [h0]
    · have h0 : decide (a.top > b.bottom) = false := decide_eq_false hc
      simp [h0]
  · exact ⟨by decide, by decide⟩

/-- Witness for C4: the universally quantified part applied at a concrete
disjoint pair of well-formed rectangles. -/
theorem claim_C4_witness :
    (Rect.new ⟨0, 0⟩ ⟨8, 8⟩).intersects (Rect.new ⟨20, 20⟩ ⟨30, 30⟩) = true :=
  claim_C4_intersects_never_prunes.1 (Rect.new ⟨0, 0⟩ ⟨8, 8⟩)
    (Rect.new ⟨20, 20⟩ ⟨30, 30⟩) (by decide) (by decide)

/-! ## Claim C5 -/

/-- The rectangle of the depth-15 all-TopLeft cell of `[0,1]²` (the bucket
rectangle a descent to raw index `2^30` computes). -/
def depth15Rect : Rect := (Rect.new ⟨0, 0⟩ ⟨1, 1⟩).get_index_rect (2 ^ 30)

/-- A storage vector holding one full capacity-1 bucket at the depth-15
all-TopLeft slot (raw index `2^30`): the origin entry with identity 0. -/
def depth15Items : Items :=
  ⟨Index.toIdx (2 ^ 30) + 1,
   [(Index.toIdx (2 ^ 30), Bucket.Owned [(⟨0, ⟨0, 0⟩⟩, 0)])]⟩

/-- **C5** (code bug): at the maximum depth (raw index `2^30`, for which
`children()` reports none) with a full bucket whose entries do **not** all
share the incoming point's quadrant, `split` does *not* skip: it proceeds,
and `child_at` silently truncates the path bits — `child_at(2^30, TopLeft)`
wraps to `0` and panics in `NonZeroU32::new(..).unwrap()` (modelled as
`none`), instead of appending the entry to the overflowing bucket. -/
theorem claim_C5_max_depth_split_panics :
    Index.children? (2 ^ 30) = none ∧
    Index.childAtRaw (2 ^ 30) Quadrant.TopLeft = 0 ∧
    (depth15Rect.get_quadrant ⟨0, 0⟩).2 ≠
      (depth15Rect.get_quadrant ⟨⟨3, 17⟩, ⟨3, 17⟩⟩).2 ∧
    (split depth15Items [] depth15Rect (2 ^ 30) ⟨⟨3, 17⟩, ⟨3, 17⟩⟩).isNone = true := by
  refine ⟨by decide, by decide, by decide, by decide⟩

/-! ## Claim C8 (counterexample part) -/

/-- Counterexample to **C8**: a zero-area rectangle still `contains` its own
corner (the bounding test is inclusive), so inserting the corner point into a
tree with the degenerate rectangle `[(0,0), (0,0)]` places it in the root
bucket (recorded index `some 1`), not in the out-of-range map. -/
theorem claim_C8_counterexample :
    ((QuadTree.new 4 ⟨0, 0⟩ ⟨0, 0⟩).insert ⟨7, ⟨0, 0⟩⟩ 5).map
      (fun s => (s.outside_of_range, s.identity_to_point.find? 7)) =
    some ([], some (⟨0, 0⟩, some 1)) := by decide

/-! ## Claim C1 -/

set_option maxRecDepth 100000

/-- **C1** (code bug): running `deepOps` panics the tree at the 17th insert
(the depth-15 split calls `child_at(2^30, TopLeft)`, whose wrapped value `0`
makes `NonZeroU32::new(0).unwrap()` panic), while the naive flat list — the
crate's own fuzz oracle — executes the same sequence fine, ending with all 17
records.  A crashed run cannot produce observable results identical to the
oracle's, so the cross-check property fails on this sequence. -/
theorem claim_C1_oracle_divergence :
    execTree deepTree deepOps = none ∧ (execFlat [] deepOps).1.length = 17 := by
  refine ⟨by decide, by decide⟩

end QTree

namespace QTree

/-! ## Claim C3: `to_idx` is the level-order flattening bijection -/

/-- The number of nodes at depths `0..d-1` of the complete 4-ary tree:
`tri d = ∑ 4^k for k < d`. -/
def Index.tri : Nat → Nat
  | 0 => 0
  | d + 1 => Index.tri d + 4 ^ d

theorem Index.tri_eq_sum (d : Nat) :
    (∑ k ∈ Finset.range d, 4 ^ k) = Index.tri d := by
  induction d with
  | zero => rfl
  | succ d ih => rw [Finset.sum_range_succ, ih]; rfl

theorem Index.three_tri (d : Nat) : 3 * Index.tri d + 1 = 4 ^ d := by
  induction d with
  | zero => rfl
  | succ d ih =>
      show 3 * (Index.tri d + 4 ^ d) + 1 = 4 ^ (d + 1)
      have : (4 : Nat) ^ (d + 1) = 4 * 4 ^ d := by ring
      omega

theorem Index.tri_mono {c d : Nat} (h : c ≤ d) : Index.tri c ≤ Index.tri d := by
  induction d with
  | zero =>
      have hc : c = 0 := by omega
      subst hc
      exact le_refl _
  | succ d ih =>
      have hstep : Index.tri (d + 1) = Index.tri d + 4 ^ d := rfl
      have hpow : 0 < 4 ^ d := by positivity
      rcases Nat.lt_or_ge c (d + 1) with h1 | h1
      · have h2 := ih (by omega)
        omega
      · have hc : c = d + 1 := by omega
        subst hc
        exact le_refl _

theorem Index.bitLenAux_spec :
    ∀ fuel n, n < 2 ^ fuel → n ≠ 0 →
      2 ^ (Index.bitLenAux fuel n - 1) ≤ n ∧ n < 2 ^ Index.bitLenAux fuel n := by
  intro fuel
  induction fuel with
  | zero => intro n hn h0; simp at hn; omega
  | succ fuel ih =>
    intro n hn h0
    have hunfold : Index.bitLenAux (fuel + 1) n =
        if n = 0 then 0 else Index.bitLenAux fuel (n / 2) + 1 := rfl
    rw [hunfold, if_neg h0]
    by_cases h1 : n = 1
    · subst h1
      have hz : Index.bitLenAux fuel (1 / 2) = 0 := by
        have h : (1 : Nat) / 2 = 0 := by norm_num
        rw [h]
        cases fuel with
        | zero => rfl
        | succ fuel => rfl
      rw [hz]
      norm_num
    · have h2 : 2 ≤ n := by omega
      have hd : n / 2 ≠ 0 := by omega
      have hp : (2 : Nat) ^ (fuel + 1) = 2 * 2 ^ fuel := by ring
      have hd2 : n / 2 < 2 ^ fuel := by omega
      obtain ⟨l, r⟩ := ih (n / 2) hd2 hd
      have hb1 : 1 ≤ Index.bitLenAux fuel (n / 2) := by
        by_contra h
        have hz : Index.bitLenAux fuel (n / 2) = 0 := by omega
        rw [hz] at r
        norm_num at r
        omega
      constructor
      · have he : 2 ^ (Index.bitLenAux fuel (n / 2) + 1 - 1) =
            2 * 2 ^ (Index.bitLenAux fuel (n / 2) - 1) := by
          rw [show Index.bitLenAux fuel (n / 2) + 1 - 1 =
            (Index.bitLenAux fuel (n / 2) - 1) + 1 by omega]
          ring
        omega
      · have he : (2 : Nat) ^ (Index.bitLenAux fuel (n / 2) + 1) =
            2 * 2 ^ Index.bitLenAux fuel (n / 2) := by ring
        omega

theorem Index.bitLen_range {d n : Nat} (hd : d ≤ 15) (h1 : 4 ^ d ≤ n)
    (h2 : n < 2 * 4 ^ d) : Index.bitLen n = 2 * d + 1 := by
  have h4 : (4 : Nat) ^ d = 2 ^ (2 * d) := by
    rw [show (4 : Nat) = 2 ^ 2 by norm_num, ← pow_mul]
  have hlo : 2 ^ (2 * d) ≤ n := by omega
  have hhi : n < 2 ^ (2 * d + 1) := by
    have : (2 : Nat) ^ (2 * d + 1) = 2 * 2 ^ (2 * d) := by ring
    omega
  have hn32 : n < 2 ^ 32 := by
    have h31 : (2 : Nat) ^ (2 * d + 1) ≤ 2 ^ 32 :=
      Nat.pow_le_pow_right (by norm_num) (by omega)
    omega
  have h0 : n ≠ 0 := by
    have : (0 : Nat) < 2 ^ (2 * d) := Nat.pos_pow_of_pos _ (by norm_num)
    omega
  obtain ⟨l, r⟩ := Index.bitLenAux_spec 32 n hn32 h0
  rw [← show Index.bitLen n = Index.bitLenAux 32 n from rfl] at l r
  have hboth1 : Index.bitLen n - 1 < 2 * d + 1 := by
    by_contra h
    have : (2 : Nat) ^ (2 * d + 1) ≤ 2 ^ (Index.bitLen n - 1) :=
      Nat.pow_le_pow_right (by norm_num) (by omega)
    have := le_trans this l
    omega
  have hboth2 : 2 * d < Index.bitLen n := by
    by_contra h
    have : (2 : Nat) ^ Index.bitLen n ≤ 2 ^ (2 * d) :=
      Nat.pow_le_pow_right (by norm_num) (by omega)
    omega
  omega

theorem Index.shiftRight_allOnes {k : Nat} (hk : k ≤ 32) :
    (2 ^ 32 - 1) >>> (32 - k) = 2 ^ k - 1 := by
  rw [Nat.shiftRight_eq_div_pow]
  have hsplit : (2 : Nat) ^ k * 2 ^ (32 - k) = 2 ^ 32 := by
    rw [← pow_add]
    congr 1
    omega
  have hpos : (0 : Nat) < 2 ^ (32 - k) := Nat.pos_pow_of_pos _ (by norm_num)
  have hposk : (0 : Nat) < 2 ^ k := Nat.pos_pow_of_pos _ (by norm_num)
  apply Nat.div_eq_of_lt_le
  · have hm : (2 ^ k - 1) * 2 ^ (32 - k) = 2 ^ k * 2 ^ (32 - k) - 2 ^ (32 - k) := by
      rw [Nat.sub_mul, one_mul]
    omega
  · have hm : (2 ^ k - 1 + 1) * 2 ^ (32 - k) = 2 ^ 32 := by
      rw [Nat.sub_add_cancel hposk, hsplit]
    omega

theorem Index.land_mask {d : Nat} (hd : d ≤ 15) :
    Nat.land 0xAAAAAAAA (2 ^ (2 * d + 1) - 1) = 2 * Index.tri d := by
  interval_cases d <;> decide

/-- The `to_idx` value of the index at depth `d` with path rank `p`. -/
theorem Index.toIdx_formula {d p : Nat} (hd : d ≤ 15) (hp : p < 4 ^ d) :
    Index.toIdx (4 ^ d + p) = Index.tri d + p := by
  have hbl : Index.bitLen (4 ^ d + p) = 2 * d + 1 :=
    Index.bitLen_range hd (by omega) (by omega)
  have hlz : Index.leadingZeros (4 ^ d + p) = 32 - (2 * d + 1) := by
    rw [Index.leadingZeros, hbl]
  rw [Index.toIdx, hlz, Index.shiftRight_allOnes (by omega), Index.land_mask hd]
  have h3 := Index.three_tri d
  omega

/-- **C3** (confirmed): `to_idx` realises the level-order flattening of the
complete 4-ary tree.  The raw value of an index at depth `d ≤ 15` whose path
bits have rank `p` (in path order) among the `4^d` same-depth paths is
`4^d + p`; its offset is `(∑ 4^k for k < d) + p`; distinct valid indices get
distinct offsets; and every offset below the total node count is hit, so the
map is a bijection onto the initial segment of the array offsets. -/
theorem claim_C3_toIdx_bijection :
    (∀ d p : Nat, d ≤ 15 → p < 4 ^ d →
        Index.toIdx (4 ^ d + p) = (∑ k ∈ Finset.range d, 4 ^ k) + p) ∧
    (∀ m n : Nat, Index.Valid m → Index.Valid n →
        Index.toIdx m = Index.toIdx n → m = n) ∧
    (∀ off : Nat, off < ∑ k ∈ Finset.range 16, 4 ^ k →
        ∃ n : Nat, Index.Valid n ∧ Index.toIdx n = off) := by
  have key : ∀ d p : Nat, d ≤ 15 → p < 4 ^ d →
      Index.toIdx (4 ^ d + p) = Index.tri d + p := fun d p hd hp =>
    Index.toIdx_formula hd hp
  refine ⟨?_, ?_, ?_⟩
  · intro d p hd hp
    rw [Index.tri_eq_sum]
    exact key d p hd hp
  · rintro m n ⟨c, hc, hc1, hc2⟩ ⟨d, hd, hd1, hd2⟩ heq
    have hm : m = 4 ^ c + (m - 4 ^ c) := by omega
    have hn : n = 4 ^ d + (n - 4 ^ d) := by omega
    have hpc : m - 4 ^ c < 4 ^ c := by omega
    have hpd : n - 4 ^ d < 4 ^ d := by omega
    rw [hm] at heq
    rw [hn] at heq
    rw [key c _ hc hpc, key d _ hd hpd] at heq
    rcases Nat.lt_trichotomy c d with hlt | heqd | hgt
    · exfalso
      have h1 : Index.tri c + (m - 4 ^ c) < Index.tri (c + 1) := by
        show _ < Index.tri c + 4 ^ c
        omega
      have h2 : Index.tri (c + 1) ≤ Index.tri d := Index.tri_mono (by omega)
      omega
    · subst heqd
      omega
    · exfalso
      have h1 : Index.tri d + (n - 4 ^ d) < Index.tri (d + 1) := by
        show _ < Index.tri d + 4 ^ d
        omega
      have h2 : Index.tri (d + 1) ≤ Index.tri c := Index.tri_mono (by omega)
      omega
  · have aux : ∀ d : Nat, d ≤ 16 → ∀ off, off < Index.tri d →
        ∃ c p, c < d ∧ p < 4 ^ c ∧ off = Index.tri c + p := by
      intro d
      induction d with
      | zero => intro _ off h; exact absurd h (by simp [Index.tri])
      | succ d ih =>
          intro hle off hoff
          rcases Nat.lt_or_ge off (Index.tri d) with h | h
          · obtain ⟨c, p, h1, h2, h3⟩ := ih (by omega) off h
            exact ⟨c, p, by omega, h2, h3⟩
          · refine ⟨d, off - Index.tri d, by omega, ?_, by omega⟩
            have : off < Index.tri d + 4 ^ d := hoff
            omega
    intro off hoff
    rw [Index.tri_eq_sum] at hoff
    obtain ⟨c, p, h1, h2, h3⟩ := aux 16 (by omega) off hoff
    refine ⟨4 ^ c + p, ⟨c, by omega, by omega, by omega⟩, ?_⟩
    rw [key c p (by omega) h2]
    omega

/-- Witness for C3: the formula, injectivity and surjectivity instantiated at
concrete indices. -/
theorem claim_C3_witness :
    Index.toIdx (4 ^ 2 + 11) = (∑ k ∈ Finset.range 2, 4 ^ k) + 11 ∧
    (Index.toIdx 5 = Index.toIdx 5 → (5 : Nat) = 5) ∧
    ∃ n : Nat, Index.Valid n ∧ Index.toIdx n = 3 := by
  refine ⟨claim_C3_toIdx_bijection.1 2 11 (by omega) (by norm_num),
    claim_C3_toIdx_bijection.2.1 5 5 ⟨1, by omega, by norm_num, by norm_num⟩
      ⟨1, by omega, by norm_num, by norm_num⟩,
    claim_C3_toIdx_bijection.2.2 3 ?_⟩
  have : (∑ k ∈ Finset.range 16, 4 ^ k) = Index.tri 16 := Index.tri_eq_sum 16
  rw [this]
  decide

end QTree

namespace QTree

/-! ## Toolkit: `SMap` laws -/

theorem SMap.find?_insert_self {β : Type} (m : SMap β) (k : Nat) (v : β) :
    (SMap.insert m k v).find? k = some v := by
  induction m with
  | nil => simp [SMap.insert, SMap.find?, List.find?]
  | cons e t ih =>
      obtain ⟨k₁, v₁⟩ := e
      by_cases h1 : k < k₁
      · simp [SMap.insert, h1, SMap.find?, List.find?]
      · by_cases h2 : k = k₁
        · subst h2
          simp [SMap.insert, h1, SMap.find?, List.find?]
        · simp only [SMap.insert, if_neg h1, if_neg h2]
          have hne : (k₁ == k) = false := by
            simp only [beq_eq_false_iff_ne, ne_eq]
            omega
          simp only [SMap.find?, List.find?, hne]
          exact ih

theorem SMap.find?_insert_ne {β : Type} (m : SMap β) (k : Nat) (v : β)
    (k2 : Nat) (h : k2 ≠ k) : (SMap.insert m k v).find? k2 = m.find? k2 := by
  induction m with
  | nil =>
      have hne : (k == k2) = false := by
        simp only [beq_eq_false_iff_ne, ne_eq]
        omega
      simp [SMap.insert, SMap.find?, List.find?, hne]
  | cons e t ih =>
      obtain ⟨k₁, v₁⟩ := e
      have hne : (k == k2) = false := by
        simp only [beq_eq_false_iff_ne, ne_eq]
        omega
      by_cases h1 : k < k₁
      · simp only [SMap.insert, if_pos h1, SMap.find?, List.find?, hne]
      · by_cases h2 : k = k₁
        · subst h2
          have hne3 : (k == k2) = false := hne
          simp only [SMap.insert, if_neg h1, if_pos rfl, SMap.find?, List.find?, hne3]
        · simp only [SMap.insert, if_neg h1, if_neg h2, SMap.find?, List.find?]
          by_cases h3 : k₁ == k2
          · simp only [h3]
          · simp only [Bool.not_eq_true] at h3
            simp only [h3]
            exact ih

theorem SMap.find?_erase_self {β : Type} (m : SMap β) (k : Nat) :
    (SMap.erase m k).find? k = none := by
  induction m with
  | nil => rfl
  | cons e t ih =>
      obtain ⟨k₁, v₁⟩ := e
      by_cases h1 : k₁ == k
      · simp only [SMap.erase, List.filter, h1, Bool.not_true]
        exact ih
      · simp only [Bool.not_eq_true] at h1
        simp only [SMap.erase, List.filter, h1, Bool.not_false, SMap.find?, List.find?, h1]
        exact ih

theorem SMap.find?_erase_ne {β : Type} (m : SMap β) (k : Nat) (k2 : Nat)
    (h : k2 ≠ k) : (SMap.erase m k).find? k2 = m.find? k2 := by
  induction m with
  | nil => rfl
  | cons e t ih =>
      obtain ⟨k₁, v₁⟩ := e
      by_cases h1 : k₁ == k
      · have h1' : k₁ = k := by simpa using h1
        subst h1'
        have hne : (k₁ == k2) = false := by
          simp only [beq_eq_false_iff_ne, ne_eq]
          omega
        simp only [SMap.erase, List.filter, h1, Bool.not_true, SMap.find?, List.find?, hne]
        exact ih
      · simp only [Bool.not_eq_true] at h1
        simp only [SMap.erase, List.filter, h1, Bool.not_false, SMap.find?, List.find?]
        by_cases h3 : k₁ == k2
        · simp only [h3]
        · simp only [Bool.not_eq_true] at h3
          simp only [h3]
          exact ih

end QTree

namespace QTree

/-! ## Toolkit: `Items` laws -/

/-- Representation invariant of the sparse vector: explicit slots lie below
the length (`resize_with` only ever fills with the default bucket). -/
def ItemsWF (it : Items) : Prop := ∀ e ∈ it.data, e.1 < it.len

theorem Items.read_lt_len {it : Items} {pos : Nat} {b : Bucket}
    (h : it.read pos = some b) : pos < it.len := by
  by_contra hc
  simp only [Items.read, if_neg hc] at h
  exact Option.noConfusion h

theorem Items.read_write_self {it : Items} {pos : Nat} {b : Bucket}
    (h : pos < it.len) : (it.write pos b).read pos = some b := by
  simp [Items.write, Items.read, h, List.find?]

theorem Items.read_write_ne (it : Items) (pos : Nat) (b : Bucket) (pos2 : Nat)
    (h : pos2 ≠ pos) : (it.write pos b).read pos2 = it.read pos2 := by
  have hne : (pos == pos2) = false := by
    simp only [beq_eq_false_iff_ne, ne_eq]
    omega
  simp only [Items.write, Items.read, List.find?, hne]
  rcases Nat.lt_or_ge pos2 it.len with h2 | h2
  · simp only [if_pos h2]
    congr 1
    congr 1
    induction it.data with
    | nil => rfl
    | cons e t ih =>
        by_cases h3 : e.1 == pos
        · have h4 : (e.1 == pos2) = false := by
            simp only [beq_eq_false_iff_ne, ne_eq]
            have : e.1 = pos := by simpa using h3
            omega
          simp only [List.filter, h3, Bool.not_true, List.find?, h4]
          exact ih
        · simp only [Bool.not_eq_true] at h3
          simp only [List.filter, h3, Bool.not_false, List.find?]
          by_cases h5 : e.1 == pos2
          · simp only [h5]
          · simp only [Bool.not_eq_true] at h5
            simp only [h5]
            exact ih
  · simp only [if_neg (by omega : ¬ pos2 < it.len)]

theorem Items.write_len (it : Items) (pos : Nat) (b : Bucket) :
    (it.write pos b).len = it.len := rfl

theorem ItemsWF.write {it : Items} (h : ItemsWF it) {pos : Nat} (b : Bucket)
    (hp : pos < it.len) : ItemsWF (it.write pos b) := by
  intro e he
  simp only [Items.write] at he
  rcases List.mem_cons.mp he with he | he
  · subst he
    exact hp
  · exact h e (List.mem_of_mem_filter he)

/-- Reading an unchanged-data, longer vector: old positions read the same. -/
theorem Items.read_mono {it it2 : Items} (hdata : it2.data = it.data)
    (hlen : it.len ≤ it2.len) {pos : Nat} {b : Bucket}
    (h : it.read pos = some b) : it2.read pos = some b := by
  have hp := Items.read_lt_len h
  simp only [Items.read, if_pos hp] at h
  simp only [Items.read, if_pos (by omega : pos < it2.len), hdata]
  exact h

/-- Reading a grown position: the `resize_with` default. -/
theorem Items.read_grown {it it2 : Items} (hWF : ItemsWF it)
    (hdata : it2.data = it.data) {pos : Nat} (h1 : it.len ≤ pos)
    (h2 : pos < it2.len) : it2.read pos = some (Bucket.Owned []) := by
  simp only [Items.read, if_pos h2, hdata]
  have : List.find? (fun e => e.1 == pos) it.data = none := by
    rw [List.find?_eq_none]
    intro e he hbeq
    have : e.1 = pos := by simpa using hbeq
    have := hWF e he
    omega
  rw [this]
  rfl

theorem ItemsWF.mono {it it2 : Items} (h : ItemsWF it) (hdata : it2.data = it.data)
    (hlen : it.len ≤ it2.len) : ItemsWF it2 := by
  intro e he
  rw [hdata] at he
  have := h e he
  omega

theorem ensureIndexValid_data (items : Items) (i : Nat) :
    (ensureIndexValid items i).data = items.data := by
  unfold ensureIndexValid
  cases Index.parent? i with
  | none => rfl
  | some p =>
      simp only
      split
      · rfl
      · rfl

theorem ensureIndexValid_len (items : Items) (i : Nat) :
    items.len ≤ (ensureIndexValid items i).len := by
  unfold ensureIndexValid
  cases Index.parent? i with
  | none => exact le_refl _
  | some p =>
      simp only
      split
      · simp only [Items.resizeTo]
        omega
      · exact le_refl _

/-- `findOwnedAux` only grows the vector and stops at an `Owned` bucket. -/
theorem findOwnedAux_spec :
    ∀ fuel items rect i p items2 rect2 j,
      findOwnedAux fuel items rect i p = some (items2, rect2, j) →
      items2.data = items.data ∧ items.len ≤ items2.len ∧
        ∃ l, items2.read (Index.toIdx j) = some (Bucket.Owned l) := by
  intro fuel
  induction fuel with
  | zero =>
      intro items rect i p items2 rect2 j h
      simp [findOwnedAux] at h
  | succ fuel ih =>
      intro items rect i p items2 rect2 j h
      simp only [findOwnedAux] at h
      rcases hr : (ensureIndexValid items i).read (Index.toIdx i) with _ | b
      · rw [hr] at h
        simp at h
      · rw [hr] at h
        cases b with
        | Owned l =>
            simp only [Option.some.injEq, Prod.mk.injEq] at h
            obtain ⟨h1, h2, h3⟩ := h
            subst h1
            subst h2
            subst h3
            exact ⟨ensureIndexValid_data items i, ensureIndexValid_len items i, l, hr⟩
        | Nested =>
            rcases hc : Index.childAt? i (rect.get_quadrant p).2 with _ | c
            · rw [hc] at h
              simp at h
            · rw [hc] at h
              obtain ⟨h1, h2, h3⟩ := ih _ _ _ _ _ _ _ h
              exact ⟨by rw [h1, ensureIndexValid_data],
                le_trans (ensureIndexValid_len items i) h2, h3⟩

theorem findOwned_spec {items : Items} {rect : Rect} {i : Nat} {p : Point}
    {items2 : Items} {rect2 : Rect} {j : Nat}
    (h : findOwned items rect i p = some (items2, rect2, j)) :
    items2.data = items.data ∧ items.len ≤ items2.len ∧
      ∃ l, items2.read (Index.toIdx j) = some (Bucket.Owned l) :=
  findOwnedAux_spec _ _ _ _ _ _ _ _ h

end QTree

namespace QTree

/-! ## Toolkit: bucket entry lists -/

/-- The entry filter used throughout: entries carrying `id`. -/
def entriesOf (l : List Entry) (id : Nat) : List Entry :=
  l.filter (fun e => e.1.identity == id)

theorem entriesOf_nil (id : Nat) : entriesOf [] id = [] := rfl

theorem entriesOf_append (l1 l2 : List Entry) (id : Nat) :
    entriesOf (l1 ++ l2) id = entriesOf l1 id ++ entriesOf l2 id := by
  simp [entriesOf]

theorem mem_of_entriesOf {l : List Entry} {id : Nat} {e : Entry}
    (h : e ∈ entriesOf l id) : e ∈ l ∧ e.1.identity = id := by
  have := List.mem_filter.mp h
  exact ⟨this.1, by simpa using this.2⟩

theorem entriesOf_eq_nil {l : List Entry} {id : Nat}
    (h : entriesOf l id = []) : ∀ e ∈ l, e.1.identity ≠ id := by
  intro e he hid
  have : e ∈ entriesOf l id := List.mem_filter.mpr ⟨he, by simpa using hid⟩
  rw [h] at this
  exact absurd this (List.not_mem_nil e)

theorem entriesOf_singleton_mem {l : List Entry} {id : Nat} {a : Entry}
    (h : entriesOf l id = [a]) : a ∈ l ∧ a.1.identity = id := by
  have : a ∈ entriesOf l id := by rw [h]; exact List.mem_singleton_self a
  exact mem_of_entriesOf this

/-- Step equation for `remove_by_identity`. -/
theorem removeByIdentity_cons (e0 : Entry) (t : List Entry) (id : Nat) :
    removeByIdentity (e0 :: t) id =
      if e0.1.identity == id then some (e0.2, t)
      else (removeByIdentity t id).map (fun r => (r.1, e0 :: r.2)) := by
  unfold removeByIdentity
  rw [List.findIdx?_cons]
  by_cases hc : (e0.1.identity == id) = true
  · simp [hc]
  · simp only [Bool.not_eq_true] at hc
    rw [if_neg (by simp [hc]), if_neg (by simp [hc]), List.findIdx?_succ]
    cases List.findIdx? (fun e => e.1.identity == id) t with
    | none => simp
    | some n => simp [List.eraseIdx_cons_succ]

/-- From a singleton filter: `remove_by_identity` removes exactly that entry,
leaving the other identities' occurrences untouched. -/
theorem removeByIdentity_of_entriesOf {l : List Entry} {id : Nat} {p : Point}
    {v : Nat} (h : entriesOf l id = [(⟨id, p⟩, v)]) :
    ∃ l2, removeByIdentity l id = some (v, l2) ∧
      entriesOf l2 id = [] ∧
      (∀ id2, id2 ≠ id → entriesOf l2 id2 = entriesOf l id2) ∧
      ∀ e ∈ l2, e ∈ l := by
  induction l with
  | nil => exact absurd h (by simp [entriesOf])
  | cons e0 t ih =>
      by_cases h0 : e0.1.identity = id
      · have hc : (e0.1.identity == id) = true := by simpa using h0
        have hfe : entriesOf (e0 :: t) id = e0 :: entriesOf t id := by
          simp [entriesOf, List.filter_cons, hc]
        rw [hfe] at h
        injection h with he0 ht
        refine ⟨t, ?_, ht, ?_, fun e he => List.mem_cons_of_mem _ he⟩
        · rw [removeByIdentity_cons, if_pos hc, he0]
        · intro id2 hne
          have hc2 : (e0.1.identity == id2) = false := by
            simp only [beq_eq_false_iff_ne, ne_eq]
            omega
          simp [entriesOf, List.filter_cons, hc2]
      · have hc : (e0.1.identity == id) = false := by simpa using h0
        have hfe : entriesOf (e0 :: t) id = entriesOf t id := by
          simp [entriesOf, List.filter_cons, hc]
        rw [hfe] at h
        obtain ⟨l2, hr, h1, h2, h3⟩ := ih h
        refine ⟨e0 :: l2, ?_, ?_, ?_, ?_⟩
        · rw [removeByIdentity_cons, if_neg (by simp [hc]), hr]
          rfl
        · simpa [entriesOf, List.filter_cons, hc] using h1
        · intro id2 hne
          by_cases hc2 : (e0.1.identity == id2) = true
          · simp only [entriesOf, List.filter_cons, hc2, if_pos]
            rw [show List.filter (fun e => e.1.identity == id2) l2 = entriesOf l2 id2 from rfl,
              show List.filter (fun e => e.1.identity == id2) t = entriesOf t id2 from rfl,
              h2 id2 hne]
          · simp only [Bool.not_eq_true] at hc2
            simp only [entriesOf, List.filter_cons, hc2]
            exact h2 id2 hne
        · intro e he
          rcases List.mem_cons.mp he with rfl | he
          · exact List.mem_cons_self _ _
          · exact List.mem_cons_of_mem _ (h3 e he)

end QTree

namespace QTree

/-- From a singleton filter: the in-place update of `update_inner` (find the
first entry with the identity, replace its point and value) rewrites exactly
that entry. -/
theorem setEntry_of_entriesOf {l : List Entry} {id : Nat} {p : Point} {v : Nat}
    (h : entriesOf l id = [(⟨id, p⟩, v)]) :
    ∃ n, l.findIdx? (fun e => e.1.identity == id) = some n ∧
      l.get? n = some (⟨id, p⟩, v) ∧
      ∀ np nv,
        entriesOf (l.set n (⟨id, np⟩, nv)) id = [(⟨id, np⟩, nv)] ∧
        (∀ id2, id2 ≠ id →
          entriesOf (l.set n (⟨id, np⟩, nv)) id2 = entriesOf l id2) ∧
        ∀ e ∈ l.set n (⟨id, np⟩, nv), e = (⟨id, np⟩, nv) ∨ e ∈ l := by
  induction l with
  | nil => exact absurd h (by simp [entriesOf])
  | cons e0 t ih =>
      by_cases h0 : e0.1.identity = id
      · have hc : (e0.1.identity == id) = true := by simpa using h0
        have hfe : entriesOf (e0 :: t) id = e0 :: entriesOf t id := by
          simp [entriesOf, List.filter_cons, hc]
        rw [hfe] at h
        injection h with he0 ht
        refine ⟨0, ?_, ?_, ?_⟩
        · rw [List.findIdx?_cons, if_pos hc]
        · simp [he0]
        · intro np nv
          refine ⟨?_, ?_, ?_⟩
          · have h5 : (id == id) = true := by simp
            have ht2 : List.filter (fun e => e.1.identity == id) t = [] := ht
            simp [List.set, entriesOf, List.filter_cons, h5, ht2]
          · intro id2 hne
            have hc2 : (e0.1.identity == id2) = false := by
              simp only [beq_eq_false_iff_ne, ne_eq]
              omega
            have hc3 : (id == id2) = false := by
              simp only [beq_eq_false_iff_ne, ne_eq]
              omega
            simp [List.set, entriesOf, List.filter_cons, hc2, hc3]
          · intro e he
            simp only [List.set] at he
            rcases List.mem_cons.mp he with rfl | he
            · exact Or.inl rfl
            · exact Or.inr (List.mem_cons_of_mem _ he)
      · have hc : (e0.1.identity == id) = false := by simpa using h0
        have hfe : entriesOf (e0 :: t) id = entriesOf t id := by
          simp [entriesOf, List.filter_cons, hc]
        rw [hfe] at h
        obtain ⟨n, hf, hg, hrest⟩ := ih h
        refine ⟨n + 1, ?_, ?_, ?_⟩
        · rw [List.findIdx?_cons, if_neg (by simp [hc]), List.findIdx?_succ, hf]
          rfl
        · simpa using hg
        · intro np nv
          obtain ⟨r1, r2, r3⟩ := hrest np nv
          refine ⟨?_, ?_, ?_⟩
          · simp only [List.set, entriesOf, List.filter_cons, hc]
            exact r1
          · intro id2 hne
            by_cases hc2 : (e0.1.identity == id2) = true
            · simp only [List.set, entriesOf, List.filter_cons, hc2, if_pos]
              rw [show List.filter (fun e => e.1.identity == id2) (t.set n (⟨id, np⟩, nv)) =
                entriesOf (t.set n (⟨id, np⟩, nv)) id2 from rfl,
                show List.filter (fun e => e.1.identity == id2) t = entriesOf t id2 from rfl,
                r2 id2 hne]
            · simp only [Bool.not_eq_true] at hc2
              simp only [List.set, entriesOf, List.filter_cons, hc2]
              exact r2 id2 hne
          · intro e he
            simp only [List.set] at he
            rcases List.mem_cons.mp he with rfl | he
            · exact Or.inr (List.mem_cons_self _ _)
            · rcases r3 e he with h | h
              · exact Or.inl h
              · exact Or.inr (List.mem_cons_of_mem _ h)

/-! ## The intended exactly-one-place invariant

`Inv` formalises the storage coherence the design intends (each recorded
identity stored exactly where its record says).  The transition lemmas below
show the invariant is preserved by the identity-index erase/insert halves of
every operation and by pure storage growth; it is *not* preserved by the
merge path, which overwrites the parent slot unconditionally — the
counterexample is `claim_C6_identity_stored_nowhere` above. -/

/-- The bucket holds exactly one entry carrying `id`, with point `p`. -/
def bucketHas (l : List Entry) (id : Nat) (p : Point) : Prop :=
  ∃ v, entriesOf l id = [(⟨id, p⟩, v)]

/-- The core invariant tying together the identity index, the flat bucket
storage and the out-of-range map: every recorded identity is stored exactly
where its record says, exactly once, and every stored entry is recorded. -/
structure Inv (s : QuadTree) : Prop where
  itemsWF : ItemsWF s.items
  lenPos : 1 ≤ s.items.len
  mapSome : ∀ id p i, s.identity_to_point.find? id = some (p, some i) →
    ∃ l, s.items.read (Index.toIdx i) = some (Bucket.Owned l) ∧
      bucketHas l id p ∧ s.rect.contains p = true
  mapNone : ∀ id p, s.identity_to_point.find? id = some (p, none) →
    ∃ v, s.outside_of_range.find? id = some (v, p)
  bucketMap : ∀ pos l, s.items.read pos = some (Bucket.Owned l) →
    ∀ e ∈ l, ∃ i, s.identity_to_point.find? e.1.identity =
      some (e.1.point, some i) ∧ Index.toIdx i = pos
  outsideMap : ∀ id v p, s.outside_of_range.find? id = some (v, p) →
    s.identity_to_point.find? id = some (p, none)

/-- Mid-operation state: `id` is absent from the identity index while its
entry (with point `p`) sits at location `ni`.  This is the state right after
the caller's `identity_to_point.remove`, and the state right before its final
`identity_to_point.insert`. -/
structure Placed (s : QuadTree) (id : Nat) (p : Point) (ni : Option Nat) : Prop where
  itemsWF : ItemsWF s.items
  lenPos : 1 ≤ s.items.len
  mapIdNone : s.identity_to_point.find? id = none
  mapSome : ∀ id2 p2 i, s.identity_to_point.find? id2 = some (p2, some i) →
    ∃ l, s.items.read (Index.toIdx i) = some (Bucket.Owned l) ∧
      bucketHas l id2 p2 ∧ s.rect.contains p2 = true
  mapNone : ∀ id2 p2, s.identity_to_point.find? id2 = some (p2, none) →
    ∃ v, s.outside_of_range.find? id2 = some (v, p2)
  placedSome : ∀ i, ni = some i →
    ∃ l, s.items.read (Index.toIdx i) = some (Bucket.Owned l) ∧
      bucketHas l id p ∧ s.rect.contains p = true
  placedNone : ni = none → ∃ v, s.outside_of_range.find? id = some (v, p)
  bucketMap : ∀ pos l, s.items.read pos = some (Bucket.Owned l) →
    ∀ e ∈ l,
      (e.1.identity = id ∧ ∃ i, ni = some i ∧ Index.toIdx i = pos ∧ e.1.point = p) ∨
      (e.1.identity ≠ id ∧ ∃ i, s.identity_to_point.find? e.1.identity =
        some (e.1.point, some i) ∧ Index.toIdx i = pos)
  outsideMap : ∀ id2 v p2, s.outside_of_range.find? id2 = some (v, p2) →
    (id2 = id ∧ ni = none ∧ p2 = p) ∨
      (id2 ≠ id ∧ s.identity_to_point.find? id2 = some (p2, none))

end QTree

namespace QTree

/-! ## Invariant transition lemmas -/

theorem Items.read_grown_cases {it it2 : Items} (hWF : ItemsWF it)
    (hdata : it2.data = it.data) (hlen : it.len ≤ it2.len) {pos : Nat}
    {b : Bucket} (h : it2.read pos = some b) :
    it.read pos = some b ∨ (b = Bucket.Owned [] ∧ it.len ≤ pos) := by
  rcases Nat.lt_or_ge pos it.len with hp | hp
  · left
    simp only [Items.read, if_pos (by omega : pos < it2.len), hdata] at h
    simp only [Items.read, if_pos hp]
    exact h
  · right
    have := Items.read_grown hWF hdata hp (Items.read_lt_len h)
    rw [this] at h
    exact ⟨(Option.some.injEq .. ▸ h.symm), hp⟩

/-- `Inv` is stable under pure growth of the storage vector (only default
empty buckets appear). -/
theorem Inv.grow {s : QuadTree} (hs : Inv s) {it2 : Items}
    (hdata : it2.data = s.items.data) (hlen : s.items.len ≤ it2.len) :
    Inv { s with items := it2 } := by
  refine ⟨hs.itemsWF.mono hdata hlen, le_trans hs.lenPos hlen, ?_, hs.mapNone, ?_, hs.outsideMap⟩
  · intro id p i hf
    obtain ⟨l, hr, hb, hc⟩ := hs.mapSome id p i hf
    exact ⟨l, Items.read_mono hdata hlen hr, hb, hc⟩
  · intro pos l hr e he
    rcases Items.read_grown_cases hs.itemsWF hdata hlen hr with hr2 | ⟨hb, _⟩
    · exact hs.bucketMap pos l hr2 e he
    · cases hb
      exact absurd he (List.not_mem_nil e)

/-- `Placed` is likewise stable under pure growth. -/
theorem Placed.grown {s : QuadTree} {id : Nat} {p : Point} {ni : Option Nat}
    (hs : Placed s id p ni) {it2 : Items} (hdata : it2.data = s.items.data)
    (hlen : s.items.len ≤ it2.len) : Placed { s with items := it2 } id p ni := by
  refine ⟨hs.itemsWF.mono hdata hlen, le_trans hs.lenPos hlen, hs.mapIdNone, ?_,
    hs.mapNone, ?_, hs.placedNone, ?_, hs.outsideMap⟩
  · intro id2 p2 i hf
    obtain ⟨l, hr, hb, hc⟩ := hs.mapSome id2 p2 i hf
    exact ⟨l, Items.read_mono hdata hlen hr, hb, hc⟩
  · intro i hi
    obtain ⟨l, hr, hb, hc⟩ := hs.placedSome i hi
    exact ⟨l, Items.read_mono hdata hlen hr, hb, hc⟩
  · intro pos l hr e he
    rcases Items.read_grown_cases hs.itemsWF hdata hlen hr with hr2 | ⟨hb, _⟩
    · exact hs.bucketMap pos l hr2 e he
    · cases hb
      exact absurd he (List.not_mem_nil e)

/-- A freshly constructed tree satisfies the invariant. -/
theorem Inv.new (cap : Nat) (tl br : Point) : Inv (QuadTree.new cap tl br) := by
  refine ⟨?_, ?_, ?_, ?_, ?_, ?_⟩
  · intro e he
    exact absurd he (List.not_mem_nil e)
  · exact le_refl 1
  · intro id p i hf
    exact absurd hf (by simp [QuadTree.new, SMap.find?, List.find?])
  · intro id p hf
    exact absurd hf (by simp [QuadTree.new, SMap.find?, List.find?])
  · intro pos l hr e he
    have : pos < 1 := Items.read_lt_len hr
    have hpos : pos = 0 := by omega
    subst hpos
    simp only [QuadTree.new, Items.read, if_pos, List.find?] at hr
    have : l = [] := by
      have := (Option.some.injEq .. ▸ hr).symm
      cases this
      rfl
    subst this
    exact absurd he (List.not_mem_nil e)
  · intro id v p hf
    exact absurd hf (by simp [QuadTree.new, SMap.find?, List.find?])

/-- Erasing a recorded identity from the index yields the mid-operation
state. -/
theorem Inv.erase {s : QuadTree} (hs : Inv s) {id : Nat} {p : Point}
    {oi : Option Nat} (hf : s.identity_to_point.find? id = some (p, oi)) :
    Placed { s with identity_to_point := s.identity_to_point.erase id } id p oi := by
  refine ⟨hs.itemsWF, hs.lenPos, SMap.find?_erase_self _ _, ?_, ?_, ?_, ?_, ?_, ?_⟩
  · intro id2 p2 i hf2
    by_cases h : id2 = id
    · subst h
      rw [SMap.find?_erase_self] at hf2
      exact absurd hf2 (by simp)
    · rw [SMap.find?_erase_ne _ _ _ h] at hf2
      exact hs.mapSome id2 p2 i hf2
  · intro id2 p2 hf2
    by_cases h : id2 = id
    · subst h
      rw [SMap.find?_erase_self] at hf2
      exact absurd hf2 (by simp)
    · rw [SMap.find?_erase_ne _ _ _ h] at hf2
      exact hs.mapNone id2 p2 hf2
  · intro i hi
    subst hi
    exact hs.mapSome id p i hf
  · intro hn
    subst hn
    exact hs.mapNone id p hf
  · intro pos l hr e he
    obtain ⟨i, hfi, hpos⟩ := hs.bucketMap pos l hr e he
    by_cases h : e.1.identity = id
    · left
      rw [h, hf] at hfi
      injection hfi with heq
      exact ⟨h, i, congrArg Prod.snd heq, hpos, (congrArg Prod.fst heq).symm⟩
    · right
      exact ⟨h, i, by rw [SMap.find?_erase_ne _ _ _ h]; exact hfi, hpos⟩
  · intro id2 v p2 hf2
    have := hs.outsideMap id2 v p2 hf2
    by_cases h : id2 = id
    · subst h
      rw [this] at hf
      have heq : (p2, (none : Option Nat)) = (p, oi) := Option.some.injEq .. ▸ hf
      exact Or.inl ⟨rfl, (Prod.mk.injEq .. ▸ heq).2.symm, (Prod.mk.injEq .. ▸ heq).1⟩
    · exact Or.inr ⟨h, by rw [SMap.find?_erase_ne _ _ _ h]; exact this⟩

/-- Re-inserting the identity's record completes the operation. -/
theorem Placed.insertMap {s : QuadTree} {id : Nat} {p : Point} {ni : Option Nat}
    (hs : Placed s id p ni) :
    Inv { s with identity_to_point := s.identity_to_point.insert id (p, ni) } := by
  refine ⟨hs.itemsWF, hs.lenPos, ?_, ?_, ?_, ?_⟩
  · intro id2 p2 i hf2
    by_cases h : id2 = id
    · subst h
      rw [SMap.find?_insert_self] at hf2
      have heq : ((p, ni) : Point × Option Nat) = (p2, some i) := Option.some.injEq .. ▸ hf2
      obtain ⟨hp, hni⟩ := Prod.mk.injEq .. ▸ heq
      subst hp
      exact hs.placedSome i hni
    · rw [SMap.find?_insert_ne _ _ _ _ h] at hf2
      exact hs.mapSome id2 p2 i hf2
  · intro id2 p2 hf2
    by_cases h : id2 = id
    · subst h
      rw [SMap.find?_insert_self] at hf2
      have heq : ((p, ni) : Point × Option Nat) = (p2, none) := Option.some.injEq .. ▸ hf2
      obtain ⟨hp, hni⟩ := Prod.mk.injEq .. ▸ heq
      subst hp
      exact hs.placedNone hni
    · rw [SMap.find?_insert_ne _ _ _ _ h] at hf2
      exact hs.mapNone id2 p2 hf2
  · intro pos l hr e he
    rcases hs.bucketMap pos l hr e he with ⟨hid, i, hni, hpos, hp⟩ | ⟨hid, i, hfi, hpos⟩
    · refine ⟨i, ?_, hpos⟩
      rw [hid, SMap.find?_insert_self, hp, hni]
    · refine ⟨i, ?_, hpos⟩
      rw [SMap.find?_insert_ne _ _ _ _ hid]
      exact hfi
  · intro id2 v p2 hf2
    rcases hs.outsideMap id2 v p2 hf2 with ⟨hid, hni, hp⟩ | ⟨hid, hfi⟩
    · subst hid
      rw [SMap.find?_insert_self, hp, hni]
    · rw [SMap.find?_insert_ne _ _ _ _ hid]
      exact hfi

end QTree

namespace QTree

/-!
## A reachable state corrupted by the depth-15 `child_at` wrap (claims C2, C6)

The build below drives one entry (identity 0) to the depth-15 bucket at raw
index `2^30 + 5` via the path TL x13, TR, TR, keeps a second entry
(identity 50) in the real depth-1 TopRight bucket at raw index 5, and then
overflows the deep bucket.  `child_at(2^30 + 5, q)` wraps mod `2^32` to
`20 + q` — the children of index 5 — so the redistribution lands identity 0
at raw index 23 and the incoming identity 99 at raw index 21: entries now
live *below* the occupied bucket 5 while their buckets are also reachable
through the wrapped children of the (now `Nested`) deep slot.
-/

/-- The 18-insert build sequence described above. -/
def wrapOps : List Instruction :=
  [Instruction.insert 0 ⟨7, 16⟩ ⟨1, 16⟩ 0,
   Instruction.insert 1 ⟨1, 1⟩ ⟨1, 1⟩ 1,
   Instruction.insert 50 ⟨3, 2⟩ ⟨1, 2⟩ 50] ++
  (List.range 12).map (fun k =>
    Instruction.insert (k + 2) ⟨1, k + 2⟩ ⟨1, k + 2⟩ (k + 2)) ++
  [Instruction.insert 14 ⟨0, 0⟩ ⟨1, 14⟩ 14,
   Instruction.insert 15 ⟨1, 14⟩ ⟨1, 15⟩ 15,
   Instruction.insert 99 ⟨7, 16⟩ ⟨0, 0⟩ 99]

/-- Capacity-1 tree over the unit square. -/
def wrapTree : QuadTree := QuadTree.new 1 ⟨0, 0⟩ ⟨1, 1⟩

/-- Splitting the real bucket at index 5 makes its slot `Nested`, after which
positions 9-12 are reachable both as the children of 5 and as the wrapped
children of the deep slot. -/
def c2Ops : List Instruction :=
  wrapOps ++ [Instruction.insert 60 ⟨5, 3⟩ ⟨1, 8⟩ 60]

/-- Removing identity 0 (at wrapped index 23) triggers `try_merge(5)`, which
collapses positions 9-12 into slot 2 — overwriting the occupied bucket of
index 5 and destroying identity 50's entry while its index record survives. -/
def c6Ops : List Instruction :=
  wrapOps ++ [Instruction.remove 0]

/-- Total number of stored entries carrying `id` across the whole storage
vector: every non-default bucket lives in the sparse `data` list (a read
outside it yields the default empty `Owned` bucket). -/
def storedCount (s : QuadTree) (id : Nat) : Nat :=
  s.items.data.foldl (fun acc e =>
    acc + (match e.2 with
           | Bucket.Owned l => l.countP (fun en => en.1.identity == id)
           | Bucket.Nested => 0)) 0

set_option maxRecDepth 4000000

/-- **C2**: refuted.  The claim says `find_range` invokes the callback exactly
once per stored entry in range and for no other entry.  In the reachable
state built by `c2Ops`, identity 0's entry is stored exactly once, yet the
radius-0 query centred on its point reports it **twice**: the traversal
reaches its bucket both through the children of index 5 and through the
wrapped (`mod 2^32`) children of the deep `Nested` slot `2^30 + 5`. -/
theorem claim_C2_find_range_double_counts :
    ((execTree wrapTree c2Ops).map (fun r => storedCount r.1 0)) = some 1 ∧
    ((execTree wrapTree c2Ops).map (fun r =>
        (r.1.find_range ⟨⟨7, 16⟩, ⟨1, 16⟩⟩ ⟨0, 0⟩).map
          (fun l => l.countP (fun e => e.1 == 0)))) = some (some 2) := by
  constructor
  · decide
  · decide

/-- **C6**: refuted.  The claim says every identity recorded in
`identity_to_point` with a `Some` index is stored in exactly the `Owned`
bucket named by that index — never in neither.  In the reachable state built
by `c6Ops`, identity 50 is recorded at index 5, but the bucket at index 5
holds only identity 99's entry, the out-of-range map does not hold identity
50, and no bucket anywhere stores it: the merge triggered by the removal
overwrote the occupied slot of index 5 with the collapsed (wrapped-index)
children. -/
theorem claim_C6_identity_stored_nowhere :
    ((execTree wrapTree c6Ops).map (fun r =>
       (r.1.identity_to_point.find? 50,
        r.1.items.read (Index.toIdx 5),
        r.1.outside_of_range.find? 50,
        storedCount r.1 50)))
    = some (some (⟨⟨3, 2⟩, ⟨1, 2⟩⟩, some 5),
            some (Bucket.Owned [(⟨99, ⟨⟨7, 16⟩, ⟨0, 0⟩⟩⟩, 99)]),
            none,
            0) := by
  decide

end QTree

namespace QTree

/-! ## Claim C7: the single merge check performed by a removal -/

/-- OR-ing low bits onto a multiple of a power of two is addition. -/
theorem lor_small {j : Nat} : ∀ (n k : Nat), k < 2 ^ j →
    Nat.lor (2 ^ j * n) k = 2 ^ j * n + k := by
  induction j with
  | zero =>
      intro n k hk
      have h0 : k = 0 := by omega
      subst h0
      show (2 ^ 0 * n) ||| 0 = 2 ^ 0 * n + 0
      simp
  | succ j ih =>
      intro n k hk
      have h1 : 2 ^ (j + 1) * n = Nat.bit false (2 ^ j * n) := by
        rw [Nat.bit_val]
        simp
        ring
      have h2 : Nat.bit k.bodd k.div2 = k := Nat.bit_decomp k
      have hd : k.div2 = k / 2 := Nat.div2_val k
      have hk2 : k / 2 < 2 ^ j := by
        have : (2 : Nat) ^ (j + 1) = 2 * 2 ^ j := by ring
        omega
      have hb : k.bodd.toNat = k % 2 := by
        have := Nat.bodd_add_div2 k
        cases hbo : k.bodd <;> simp [hbo] at this ⊢ <;> omega
      show 2 ^ (j + 1) * n ||| k = 2 ^ (j + 1) * n + k
      conv_lhs => rw [h1, ← h2]
      rw [Nat.lor_bit, Bool.false_or]
      have hih : Nat.lor (2 ^ j * n) (k / 2) = 2 ^ j * n + k / 2 := ih n (k / 2) hk2
      have hstep : (2 ^ j * n ||| k.div2) = 2 ^ j * n + k / 2 := by
        rw [hd]
        exact hih
      rw [hstep, Nat.bit_val, hb]
      have hgoal : 2 ^ (j + 1) * n = 2 * (2 ^ j * n) := by ring
      rw [hgoal]
      omega

/-- Below the wrap threshold, `child_at` appends the quadrant bits
arithmetically. -/
theorem Index.childAtRaw_eq {n : Nat} (h : n < 2 ^ 30) (q : Quadrant) :
    Index.childAtRaw n q = 4 * n + q.toNat := by
  have hq : q.toNat < 4 := by cases q <;> decide
  have hsh : n <<< 2 = 2 ^ 2 * n := by
    rw [Nat.shiftLeft_eq]
    ring
  have hlt : 2 ^ 2 * n < 2 ^ 32 := by
    have : 2 ^ 2 * n < 2 ^ 2 * 2 ^ 30 := by
      have h4 : (0 : Nat) < 2 ^ 2 := by norm_num
      exact (Nat.mul_lt_mul_left h4).mpr h
    calc 2 ^ 2 * n < 2 ^ 2 * 2 ^ 30 := this
      _ = 2 ^ 32 := by norm_num
  have hmod : (n <<< 2) % 2 ^ 32 = 2 ^ 2 * n := by
    rw [hsh, Nat.mod_eq_of_lt hlt]
  rw [Index.childAtRaw, hmod, lor_small n q.toNat hq]
  omega

/-- `to_idx` of a child index, in closed form. -/
theorem Index.toIdx_child {n a d : Nat} (hd : d ≤ 14) (h1 : 4 ^ d ≤ n)
    (h2 : n < 2 * 4 ^ d) (ha : a < 4) :
    Index.toIdx (4 * n + a) = Index.tri (d + 1) + (4 * n + a - 4 ^ (d + 1)) := by
  have hps : (4 : Nat) ^ (d + 1) = 4 * 4 ^ d := by ring
  have hsplit : 4 * n + a = 4 ^ (d + 1) + (4 * n + a - 4 ^ (d + 1)) := by omega
  rw [hsplit, Index.toIdx_formula (by omega) (by omega)]
  omega

/-- The bulk re-insertion loop of `try_merge` records the parent index for
any identity that already points at the parent. -/
theorem foldl_ins_keeps (n : Nat) :
    ∀ (l : List Entry) (m : SMap (Point × Option Nat)) (id : Nat) (p2 : Point),
      SMap.find? m id = some (p2, some n) →
      ∃ p3, SMap.find?
        (l.foldl (fun m e => m.insert e.1.identity (e.1.point, some n)) m) id
        = some (p3, some n) := by
  intro l
  induction l with
  | nil => exact fun m id p2 h => ⟨p2, h⟩
  | cons e t ih =>
      intro m id p2 h
      rw [List.foldl_cons]
      by_cases he : e.1.identity = id
      · subst he
        exact ih _ _ e.1.point (SMap.find?_insert_self m _ _)
      · refine ih _ id p2 ?_
        rw [SMap.find?_insert_ne _ _ _ _ (fun hh => he hh.symm)]
        exact h

/-- Every moved entry's identity is re-pointed at the parent index by the
bulk re-insertion loop of `try_merge`. -/
theorem foldl_ins_mem (n : Nat) :
    ∀ (l : List Entry) (m : SMap (Point × Option Nat)) (e : Entry), e ∈ l →
      ∃ p2, SMap.find?
        (l.foldl (fun m e => m.insert e.1.identity (e.1.point, some n)) m)
        e.1.identity = some (p2, some n) := by
  intro l
  induction l with
  | nil =>
      intro m e he
      exact absurd he (List.not_mem_nil e)
  | cons e0 t ih =>
      intro m e he
      rw [List.foldl_cons]
      rcases List.mem_cons.mp he with rfl | he
      · exact foldl_ins_keeps n t _ _ e.1.point (SMap.find?_insert_self m _ _)
      · exact ih _ e he

end QTree

namespace QTree

/-- **C7** (confirmed): after a removal whose recorded index points into the
flat array, exactly one merge check runs, on the immediate parent: the last
two conjuncts show `try_remove` invokes `tryMerge` exactly once, on
`parent(i)` (and not at all at the root).  The first conjunct shows the
collapse case: when the parent's four children all exist and are all `Owned`
with a combined load of at most `N`, they are vacated (`Nested`), their
entries are concatenated into the parent bucket, and the trailing-`Nested`
pop loop runs; the second shows the identity index is re-pointed at the
parent for every moved entry; the third shows that a `Nested` child or a
combined load above `N` leaves the tree unchanged. -/
theorem claim_C7_remove_single_merge :
    (∀ (s : QuadTree) (n d c0 c1 c2 c3 : Nat) (l0 l1 l2 l3 : List Entry),
      d ≤ 14 → 4 ^ d ≤ n → n < 2 * 4 ^ d →
      Index.children? n = some [c0, c1, c2, c3] →
      s.items.read (Index.toIdx c0) = some (Bucket.Owned l0) →
      s.items.read (Index.toIdx c1) = some (Bucket.Owned l1) →
      s.items.read (Index.toIdx c2) = some (Bucket.Owned l2) →
      s.items.read (Index.toIdx c3) = some (Bucket.Owned l3) →
      l0.length + l1.length + l2.length + l3.length ≤ s.cap →
      tryMerge s n = some { s with
        items := popLoop (((((s.items.write (Index.toIdx c0) Bucket.Nested).write
            (Index.toIdx c1) Bucket.Nested).write (Index.toIdx c2)
            Bucket.Nested).write (Index.toIdx c3) Bucket.Nested).write
            (Index.toIdx n) (Bucket.Owned (l0 ++ l1 ++ l2 ++ l3))),
        identity_to_point := (l0 ++ l1 ++ l2 ++ l3).foldl
          (fun m e => m.insert e.1.identity (e.1.point, some n))
          s.identity_to_point }) ∧
    (∀ (n : Nat) (l : List Entry) (m : SMap (Point × Option Nat)) (e : Entry),
      e ∈ l →
      ∃ p2, SMap.find?
        (l.foldl (fun m e => m.insert e.1.identity (e.1.point, some n)) m)
        e.1.identity = some (p2, some n)) ∧
    (∀ (s : QuadTree) (n : Nat) (cs : List Nat) (m : Nat),
      Index.children? n = some cs →
      mergeSum s.items s.cap cs = some m → s.cap < m →
      tryMerge s n = some s) ∧
    (∀ (s : QuadTree) (id : Nat) (p : Point) (i n : Nat) (l : List Entry)
        (v : Nat) (l2 : List Entry),
      s.identity_to_point.find? id = some (p, some i) →
      s.items.read (Index.toIdx i) = some (Bucket.Owned l) →
      removeByIdentity l id = some (v, l2) →
      Index.parent? i = some n →
      s.try_remove id = (tryMerge { s with
          identity_to_point := s.identity_to_point.erase id,
          items := s.items.write (Index.toIdx i) (Bucket.Owned l2) } n).map
        (fun s3 => (s3, some (v, p)))) ∧
    (∀ (s : QuadTree) (id : Nat) (p : Point) (i : Nat) (l : List Entry)
        (v : Nat) (l2 : List Entry),
      s.identity_to_point.find? id = some (p, some i) →
      s.items.read (Index.toIdx i) = some (Bucket.Owned l) →
      removeByIdentity l id = some (v, l2) →
      Index.parent? i = none →
      s.try_remove id = some ({ s with
          identity_to_point := s.identity_to_point.erase id,
          items := s.items.write (Index.toIdx i) (Bucket.Owned l2) }, some (v, p))) := by
  refine ⟨?_, ?_, ?_, ?_, ?_⟩
  · intro s n d c0 c1 c2 c3 l0 l1 l2 l3 hd h1 h2 hc hr0 hr1 hr2 hr3 hsum
    have h414 : (4 : Nat) ^ 14 = 268435456 := by norm_num
    have hpow : (4 : Nat) ^ d ≤ 4 ^ 14 := Nat.pow_le_pow_right (by norm_num) hd
    have h230 : (2 : Nat) ^ 30 = 1073741824 := by norm_num
    have hn30 : n < 2 ^ 30 := by omega
    have hcs : Index.children? n = some [Index.childAtRaw n Quadrant.TopLeft,
        Index.childAtRaw n Quadrant.TopRight,
        Index.childAtRaw n Quadrant.BottomLeft,
        Index.childAtRaw n Quadrant.BottomRight] := by
      rw [Index.children?, if_neg (by omega)]
    rw [hcs] at hc
    injection hc with hlist
    simp only [List.cons.injEq, and_true] at hlist
    obtain ⟨e0, e1, e2, e3⟩ := hlist
    have f0 : c0 = 4 * n + 0 := by rw [← e0, Index.childAtRaw_eq hn30]; rfl
    have f1 : c1 = 4 * n + 1 := by rw [← e1, Index.childAtRaw_eq hn30]; rfl
    have f2 : c2 = 4 * n + 2 := by rw [← e2, Index.childAtRaw_eq hn30]; rfl
    have f3 : c3 = 4 * n + 3 := by rw [← e3, Index.childAtRaw_eq hn30]; rfl
    subst f0 f1 f2 f3
    have hps : (4 : Nat) ^ (d + 1) = 4 * 4 ^ d := by ring
    have t0 := Index.toIdx_child (a := 0) hd h1 h2 (by norm_num)
    have t1 := Index.toIdx_child (a := 1) hd h1 h2 (by norm_num)
    have t2 := Index.toIdx_child (a := 2) hd h1 h2 (by norm_num)
    have t3 := Index.toIdx_child (a := 3) hd h1 h2 (by norm_num)
    have n10 : Index.toIdx (4 * n + 1) ≠ Index.toIdx (4 * n + 0) := by
      rw [t0, t1]; omega
    have n20 : Index.toIdx (4 * n + 2) ≠ Index.toIdx (4 * n + 0) := by
      rw [t0, t2]; omega
    have n21 : Index.toIdx (4 * n + 2) ≠ Index.toIdx (4 * n + 1) := by
      rw [t1, t2]; omega
    have n30 : Index.toIdx (4 * n + 3) ≠ Index.toIdx (4 * n + 0) := by
      rw [t0, t3]; omega
    have n31 : Index.toIdx (4 * n + 3) ≠ Index.toIdx (4 * n + 1) := by
      rw [t1, t3]; omega
    have n32 : Index.toIdx (4 * n + 3) ≠ Index.toIdx (4 * n + 2) := by
      rw [t2, t3]; omega
    have hw1 : ((s.items.write (Index.toIdx (4 * n + 0)) Bucket.Nested)).read
        (Index.toIdx (4 * n + 1)) = some (Bucket.Owned l1) := by
      rw [Items.read_write_ne _ _ _ _ n10]; exact hr1
    have hw2 : (((s.items.write (Index.toIdx (4 * n + 0)) Bucket.Nested).write
        (Index.toIdx (4 * n + 1)) Bucket.Nested)).read
        (Index.toIdx (4 * n + 2)) = some (Bucket.Owned l2) := by
      rw [Items.read_write_ne _ _ _ _ n21, Items.read_write_ne _ _ _ _ n20]
      exact hr2
    have hw3 : ((((s.items.write (Index.toIdx (4 * n + 0)) Bucket.Nested).write
        (Index.toIdx (4 * n + 1)) Bucket.Nested).write
        (Index.toIdx (4 * n + 2)) Bucket.Nested)).read
        (Index.toIdx (4 * n + 3)) = some (Bucket.Owned l3) := by
      rw [Items.read_write_ne _ _ _ _ n32, Items.read_write_ne _ _ _ _ n31,
        Items.read_write_ne _ _ _ _ n30]
      exact hr3
    have hms : mergeSum s.items s.cap [4 * n + 0, 4 * n + 1, 4 * n + 2, 4 * n + 3]
        = some (l0.length + (l1.length + (l2.length + (l3.length + 0)))) := by
      simp only [mergeSum, hr0, hr1, hr2, hr3, Option.map]
    have hmc : mergeChildren s.items s.identity_to_point n []
        [4 * n + 0, 4 * n + 1, 4 * n + 2, 4 * n + 3] = some
        (((((s.items.write (Index.toIdx (4 * n + 0)) Bucket.Nested).write
            (Index.toIdx (4 * n + 1)) Bucket.Nested).write (Index.toIdx (4 * n + 2))
            Bucket.Nested).write (Index.toIdx (4 * n + 3)) Bucket.Nested),
          l3.foldl (fun m e => m.insert e.1.identity (e.1.point, some n))
            (l2.foldl (fun m e => m.insert e.1.identity (e.1.point, some n))
              (l1.foldl (fun m e => m.insert e.1.identity (e.1.point, some n))
                (l0.foldl (fun m e => m.insert e.1.identity (e.1.point, some n))
                  s.identity_to_point))),
          (([] ++ l0) ++ l1) ++ l2 ++ l3) := by
      simp only [mergeChildren, hr0, hw1, hw2, hw3]
    have hch : Index.children? n = some [4 * n + 0, 4 * n + 1, 4 * n + 2, 4 * n + 3] := by
      rw [hcs, e0, e1, e2, e3]
    simp only [tryMerge, hch, hms, hmc]
    rw [if_pos (by omega)]
    simp only [List.nil_append, List.append_assoc, List.foldl_append]
  · exact fun n l m e he => foldl_ins_mem n l m e he
  · intro s n cs m hc hm hgt
    simp only [tryMerge, hc, hm]
    rw [if_neg (by omega)]
  · intro s id p i n l v l2 hf hr hrem hpar
    simp only [QuadTree.try_remove, hf, hr, hrem, hpar]
  · intro s id p i l v l2 hf hr hrem hpar
    simp only [QuadTree.try_remove, hf, hr, hrem, hpar]

end QTree

namespace QTree

/-- A sample point for the C7 witness state. -/
def c7pt : Point := ⟨⟨1, 1⟩, ⟨1, 1⟩⟩

/-- Witness state for the collapse case: identity 7 alone in the TopLeft
child (index 4) of the root, its three siblings empty. -/
def c7sA : QuadTree :=
  ⟨1, Rect.new ⟨0, 0⟩ ⟨1, 1⟩,
   ⟨5, [(0, Bucket.Nested), (1, Bucket.Owned [(⟨7, c7pt⟩, 42)])]⟩,
   [], [(7, (c7pt, some 4))]⟩

/-- Witness state for the no-merge case: the TopLeft child is itself
`Nested`. -/
def c7sB : QuadTree :=
  ⟨1, Rect.new ⟨0, 0⟩ ⟨1, 1⟩, ⟨5, [(1, Bucket.Nested)]⟩, [], []⟩

/-- Witness state for the root-bucket removal (no parent, no merge). -/
def c7sD : QuadTree :=
  ⟨1, Rect.new ⟨0, 0⟩ ⟨1, 1⟩, ⟨1, [(0, Bucket.Owned [(⟨8, c7pt⟩, 9)])]⟩,
   [], [(8, (c7pt, some 1))]⟩

theorem claim_C7_witness :
    (tryMerge c7sA 1 = some { c7sA with
      items := popLoop (((((c7sA.items.write (Index.toIdx 4) Bucket.Nested).write
          (Index.toIdx 5) Bucket.Nested).write (Index.toIdx 6)
          Bucket.Nested).write (Index.toIdx 7) Bucket.Nested).write
          (Index.toIdx 1) (Bucket.Owned ([(⟨7, c7pt⟩, 42)] ++ [] ++ [] ++ []))),
      identity_to_point := (([(⟨7, c7pt⟩, 42)] : List Entry) ++ [] ++ [] ++ []).foldl
        (fun (m : SMap (Point × Option Nat)) (e : Entry) =>
          m.insert e.1.identity (e.1.point, some 1))
        c7sA.identity_to_point }) ∧
    (∃ p2, SMap.find?
        (([((⟨7, c7pt⟩ : IdentityPoint), 42)] : List Entry).foldl
          (fun m e => m.insert e.1.identity (e.1.point, some 1))
          ([] : SMap (Point × Option Nat)))
        (((⟨7, c7pt⟩ : IdentityPoint), 42) : Entry).1.identity
        = some (p2, some 1)) ∧
    (tryMerge c7sB 1 = some c7sB) ∧
    (c7sA.try_remove 7 = (tryMerge { c7sA with
        identity_to_point := c7sA.identity_to_point.erase 7,
        items := c7sA.items.write (Index.toIdx 4) (Bucket.Owned []) } 1).map
      (fun s3 => (s3, some (42, c7pt)))) ∧
    (c7sD.try_remove 8 = some ({ c7sD with
        identity_to_point := c7sD.identity_to_point.erase 8,
        items := c7sD.items.write (Index.toIdx 1) (Bucket.Owned []) }, some (9, c7pt))) := by
  refine ⟨?_, ?_, ?_, ?_, ?_⟩
  · exact claim_C7_remove_single_merge.1 c7sA 1 0 4 5 6 7 [(⟨7, c7pt⟩, 42)] [] [] []
      (by norm_num) (by norm_num) (by norm_num) rfl rfl rfl rfl rfl (by decide)
  · exact claim_C7_remove_single_merge.2.1 1 [(⟨7, c7pt⟩, 42)] []
      (⟨7, c7pt⟩, 42) (List.mem_singleton_self _)
  · exact claim_C7_remove_single_merge.2.2.1 c7sB 1 [4, 5, 6, 7] 2 rfl rfl
      (by decide)
  · exact claim_C7_remove_single_merge.2.2.2.1 c7sA 7 c7pt 4 1
      [(⟨7, c7pt⟩, 42)] 42 [] rfl rfl rfl rfl
  · exact claim_C7_remove_single_merge.2.2.2.2 c7sD 8 c7pt 1
      [(⟨8, c7pt⟩, 9)] 9 [] rfl rfl rfl rfl

end QTree

namespace QTree

/-- **C9** (confirmed): on an unknown identity, `update`,
`update_point_and_value` and `try_remove` return the sentinel (`false` /
`None`) together with the *identical* tree state (the very same `s`).  On a
present identity, `update` and `update_point_and_value` return `true`
whenever they return at all, and `try_remove` returns `Some` of the stored
(value, point) pair — read from the recorded bucket when the recorded index
is `Some` (the presence hypotheses spell out the exactly-one-place coherence
of the record, which reachable states satisfy until the C6 corruption), and
from the out-of-range map when it is `None`. -/
theorem claim_C9_absent_present_results :
    (∀ (s : QuadTree) (id : Nat) (p : Point) (vf : Nat → Nat),
      s.identity_to_point.find? id = none →
      s.update id p = some (s, false) ∧
      s.update_point_and_value id p vf = some (s, false) ∧
      s.try_remove id = some (s, none)) ∧
    (∀ (s : QuadTree) (id : Nat) (pr : Point × Option Nat) (p : Point)
        (s2 : QuadTree) (b : Bool),
      s.identity_to_point.find? id = some pr →
      s.update id p = some (s2, b) → b = true) ∧
    (∀ (s : QuadTree) (id : Nat) (pr : Point × Option Nat) (p : Point)
        (vf : Nat → Nat) (s2 : QuadTree) (b : Bool),
      s.identity_to_point.find? id = some pr →
      s.update_point_and_value id p vf = some (s2, b) → b = true) ∧
    (∀ (s : QuadTree) (id : Nat) (p₀ : Point) (i : Nat) (l : List Entry)
        (v : Nat) (s2 : QuadTree) (r : Option (Nat × Point)),
      s.identity_to_point.find? id = some (p₀, some i) →
      s.items.read (Index.toIdx i) = some (Bucket.Owned l) →
      entriesOf l id = [(⟨id, p₀⟩, v)] →
      s.try_remove id = some (s2, r) → r = some (v, p₀)) ∧
    (∀ (s : QuadTree) (id : Nat) (p₀ : Point) (v : Nat) (s2 : QuadTree)
        (r : Option (Nat × Point)),
      s.identity_to_point.find? id = some (p₀, none) →
      s.outside_of_range.find? id = some (v, p₀) →
      s.try_remove id = some (s2, r) → r = some (v, p₀)) := by
  refine ⟨?_, ?_, ?_, ?_, ?_⟩
  · intro s id p vf hf
    refine ⟨?_, ?_, ?_⟩
    · simp only [QuadTree.update, hf]
    · simp only [QuadTree.update_point_and_value, hf]
    · simp only [QuadTree.try_remove, hf]
  · intro s id pr p s2 b hf h
    simp only [QuadTree.update, hf] at h
    cases hui : updateInner { s with identity_to_point := s.identity_to_point.erase id }
        id p pr.2 (fun v => v) with
    | none =>
        rw [hui] at h
        exact absurd h (by simp)
    | some d =>
        rw [hui] at h
        have := (Option.some.injEq .. ▸ h.symm)
        exact congrArg Prod.snd this
  · intro s id pr p vf s2 b hf h
    simp only [QuadTree.update_point_and_value, hf] at h
    cases hui : updateInner { s with identity_to_point := s.identity_to_point.erase id }
        id p pr.2 vf with
    | none =>
        rw [hui] at h
        exact absurd h (by simp)
    | some d =>
        rw [hui] at h
        have := (Option.some.injEq .. ▸ h.symm)
        exact congrArg Prod.snd this
  · intro s id p₀ i l v s2 r hf hr hent htr
    obtain ⟨l2, hrem, _, _, _⟩ := removeByIdentity_of_entriesOf hent
    simp only [QuadTree.try_remove, hf, hr, hrem] at htr
    cases hpar : Index.parent? i with
    | some n =>
        simp only [hpar] at htr
        rw [Option.map_eq_some'] at htr
        obtain ⟨s3, _, hfa⟩ := htr
        exact (congrArg Prod.snd hfa).symm
    | none =>
        simp only [hpar] at htr
        injection htr with hpr
        exact (congrArg Prod.snd hpr).symm
  · intro s id p₀ v s2 r hf hout htr
    simp only [QuadTree.try_remove, hf, hout] at htr
    injection htr with hpr
    exact (congrArg Prod.snd hpr).symm

end QTree

namespace QTree

/-- C9 witness state: identity 8 stored in the root bucket at the unit
square's midpoint. -/
def c9s : QuadTree :=
  ⟨1, Rect.new ⟨0, 0⟩ ⟨1, 1⟩,
   ⟨1, [(0, Bucket.Owned [(⟨8, ⟨⟨1, 1⟩, ⟨1, 1⟩⟩⟩, 9)])]⟩,
   [], [(8, (⟨⟨1, 1⟩, ⟨1, 1⟩⟩, some 1))]⟩

/-- C9 witness state: identity 8 stored out of range. -/
def c9sOut : QuadTree :=
  ⟨1, Rect.new ⟨0, 0⟩ ⟨1, 1⟩, ⟨1, []⟩, [(8, (9, ⟨⟨3, 1⟩, ⟨3, 1⟩⟩))],
   [(8, (⟨⟨3, 1⟩, ⟨3, 1⟩⟩, none))]⟩

/-- The relocated state `c9s.update 8 (3/2, 3/2)` produces. -/
def c9sMoved : QuadTree :=
  ⟨1, Rect.new ⟨0, 0⟩ ⟨1, 1⟩, ⟨1, [(0, Bucket.Owned [])]⟩,
   [(8, (9, ⟨⟨3, 1⟩, ⟨3, 1⟩⟩))], [(8, (⟨⟨3, 1⟩, ⟨3, 1⟩⟩, none))]⟩

/-- The state `c9s.try_remove 8` produces. -/
def c9sRemoved : QuadTree :=
  ⟨1, Rect.new ⟨0, 0⟩ ⟨1, 1⟩, ⟨1, [(0, Bucket.Owned [])]⟩, [], []⟩

/-- The state `c9sOut.try_remove 8` produces. -/
def c9sOutRemoved : QuadTree :=
  ⟨1, Rect.new ⟨0, 0⟩ ⟨1, 1⟩, ⟨1, []⟩, [], []⟩

theorem claim_C9_witness :
    (wrapTree.identity_to_point.find? 3 = none ∧
      (wrapTree.update 3 ⟨⟨1, 1⟩, ⟨1, 1⟩⟩ = some (wrapTree, false) ∧
       wrapTree.update_point_and_value 3 ⟨⟨1, 1⟩, ⟨1, 1⟩⟩ (fun v => v + 1)
         = some (wrapTree, false) ∧
       wrapTree.try_remove 3 = some (wrapTree, none))) ∧
    (c9s.update 8 ⟨⟨3, 1⟩, ⟨3, 1⟩⟩ = some (c9sMoved, true) ∧ true = true) ∧
    (c9s.update_point_and_value 8 ⟨⟨3, 1⟩, ⟨3, 1⟩⟩ (fun _ => 9)
        = some (c9sMoved, true) ∧ true = true) ∧
    (c9s.try_remove 8 = some (c9sRemoved, some (9, ⟨⟨1, 1⟩, ⟨1, 1⟩⟩)) ∧
      (some (9, (⟨⟨1, 1⟩, ⟨1, 1⟩⟩ : Point)) : Option (Nat × Point))
        = some (9, ⟨⟨1, 1⟩, ⟨1, 1⟩⟩)) ∧
    (c9sOut.try_remove 8 = some (c9sOutRemoved, some (9, ⟨⟨3, 1⟩, ⟨3, 1⟩⟩)) ∧
      (some (9, (⟨⟨3, 1⟩, ⟨3, 1⟩⟩ : Point)) : Option (Nat × Point))
        = some (9, ⟨⟨3, 1⟩, ⟨3, 1⟩⟩)) := by
  refine ⟨⟨rfl, ?_⟩, ⟨rfl, ?_⟩, ⟨rfl, ?_⟩, ⟨rfl, ?_⟩, ⟨rfl, ?_⟩⟩
  · exact claim_C9_absent_present_results.1 wrapTree 3 ⟨⟨1, 1⟩, ⟨1, 1⟩⟩
      (fun v => v + 1) rfl
  · exact claim_C9_absent_present_results.2.1 c9s 8 (⟨⟨1, 1⟩, ⟨1, 1⟩⟩, some 1)
      ⟨⟨3, 1⟩, ⟨3, 1⟩⟩ c9sMoved true rfl rfl
  · exact claim_C9_absent_present_results.2.2.1 c9s 8 (⟨⟨1, 1⟩, ⟨1, 1⟩⟩, some 1)
      ⟨⟨3, 1⟩, ⟨3, 1⟩⟩ (fun _ => 9) c9sMoved true rfl rfl
  · exact claim_C9_absent_present_results.2.2.2.1 c9s 8 ⟨⟨1, 1⟩, ⟨1, 1⟩⟩ 1
      [(⟨8, ⟨⟨1, 1⟩, ⟨1, 1⟩⟩⟩, 9)] 9 c9sRemoved (some (9, ⟨⟨1, 1⟩, ⟨1, 1⟩⟩))
      rfl rfl rfl rfl
  · exact claim_C9_absent_present_results.2.2.2.2 c9sOut 8 ⟨⟨3, 1⟩, ⟨3, 1⟩⟩ 9
      c9sOutRemoved (some (9, ⟨⟨3, 1⟩, ⟨3, 1⟩⟩)) rfl rfl rfl

end QTree

namespace QTree

/-- Scalar order is total: not-less-than flips to greater-or-equal. -/
theorem Scalar.flip_not_lt {a b : Scalar} (h : ¬ a < b) : b ≤ a := by
  rw [Scalar.toRat_le]
  rw [Scalar.toRat_lt] at h
  exact le_of_not_lt h

/-- Scalar strict order composes with the non-strict one. -/
theorem Scalar.lt_le_trans {a b c : Scalar} (h1 : a < b) (h2 : b ≤ c) :
    a < c := by
  rw [Scalar.toRat_lt] at h1 ⊢
  rw [Scalar.toRat_le] at h2
  exact lt_of_lt_of_le h1 h2

/-- A rectangle inverted on either axis contains no point at all. -/
theorem contains_false_of_inverted {r : Rect}
    (h : r.right < r.left ∨ r.bottom < r.top) (p : Point) :
    r.contains p = false := by
  rcases h with h | h
  · by_cases hx : r.left > p.x
    · simp [Rect.contains, hx]
    · have hle : r.left ≤ p.x := Scalar.flip_not_lt hx
      have hlt : r.right < p.x := Scalar.lt_le_trans h hle
      simp [Rect.contains, hlt]
  · by_cases hy : r.top > p.y
    · simp [Rect.contains, hy]
    · have hle : r.top ≤ p.y := Scalar.flip_not_lt hy
      have hlt : r.bottom < p.y := Scalar.lt_le_trans h hle
      simp [Rect.contains, hlt]

end QTree

namespace QTree

/-- **C8** (corrected; see `claim_C8_counterexample` for the refuted part).
Amended statement: construction never rejects degenerate corners (the
constructor is total and stores the corners verbatim — only the scalar
type's NaN/Infinity rejection exists, and those values are not
representable here); a rectangle *inverted* on either axis contains no
point, so every completed insert into such a tree records the identity in
the out-of-range map with no bucket index.  (For merely zero-area,
non-inverted rectangles the original claim fails: boundary points are still
accepted into tree buckets — that is the counterexample.) -/
theorem claim_C8_degenerate_rect_amended :
    (∀ (cap : Nat) (tl br : Point),
      QuadTree.new cap tl br = ⟨cap, Rect.new tl br, ⟨1, []⟩, [], []⟩) ∧
    (∀ (r : Rect), (r.right < r.left ∨ r.bottom < r.top) →
      ∀ p, r.contains p = false) ∧
    (∀ (s : QuadTree) (pt : IdentityPoint) (v : Nat) (s2 : QuadTree),
      (s.rect.right < s.rect.left ∨ s.rect.bottom < s.rect.top) →
      s.insert pt v = some s2 →
      s2.identity_to_point.find? pt.identity = some (pt.point, none) ∧
      s2.outside_of_range.find? pt.identity = some (v, pt.point)) := by
  refine ⟨fun cap tl br => rfl, fun r h p => contains_false_of_inverted h p, ?_⟩
  intro s pt v s2 hinv h
  have hcf : s.rect.contains pt.point = false :=
    contains_false_of_inverted hinv pt.point
  cases hfind : s.identity_to_point.find? pt.identity with
  | none =>
      simp only [QuadTree.insert, hfind, hcf, Bool.not_false, if_true] at h
      injection h with h2
      subst h2
      exact ⟨SMap.find?_insert_self _ _ _, SMap.find?_insert_self _ _ _⟩
  | some pr =>
      obtain ⟨p₀, oi⟩ := pr
      simp only [QuadTree.insert, hfind, updateInner, hcf, Bool.false_eq_true,
        if_false] at h
      cases oi with
      | some idx =>
          simp only [updateInnerSlow] at h
          cases hrd : s.items.read (Index.toIdx idx) with
          | none =>
              simp only [hrd] at h
              exact absurd h (by simp)
          | some b =>
              cases b with
              | Nested =>
                  simp only [hrd] at h
                  exact absurd h (by simp)
              | Owned l =>
                  simp only [hrd] at h
                  cases hrm : removeByIdentity l pt.identity with
                  | none =>
                      simp only [hrm] at h
                      exact absurd h (by simp)
                  | some vl =>
                      simp only [hrm] at h
                      injection h with h2
                      subst h2
                      exact ⟨SMap.find?_insert_self _ _ _,
                        SMap.find?_insert_self _ _ _⟩
      | none =>
          simp only [updateInnerSlow] at h
          cases hout : s.outside_of_range.find? pt.identity with
          | none =>
              simp only [hout] at h
              exact absurd h (by simp)
          | some vp =>
              simp only [hout] at h
              injection h with h2
              subst h2
              exact ⟨SMap.find?_insert_self _ _ _, SMap.find?_insert_self _ _ _⟩

end QTree

namespace QTree

/-- A capacity-1 tree over an inverted rectangle (corners swapped). -/
def c8Tree : QuadTree := QuadTree.new 1 ⟨⟨1, 0⟩, ⟨1, 0⟩⟩ ⟨⟨0, 0⟩, ⟨0, 0⟩⟩

/-- The state after inserting identity 5 into the inverted-rectangle tree. -/
def c8After : QuadTree :=
  ⟨1, Rect.new ⟨⟨1, 0⟩, ⟨1, 0⟩⟩ ⟨⟨0, 0⟩, ⟨0, 0⟩⟩, ⟨1, []⟩,
   [(5, (7, ⟨⟨1, 1⟩, ⟨1, 1⟩⟩))], [(5, (⟨⟨1, 1⟩, ⟨1, 1⟩⟩, none))]⟩

theorem claim_C8_witness :
    (QuadTree.new 1 ⟨⟨1, 0⟩, ⟨1, 0⟩⟩ ⟨⟨0, 0⟩, ⟨0, 0⟩⟩ =
      ⟨1, Rect.new ⟨⟨1, 0⟩, ⟨1, 0⟩⟩ ⟨⟨0, 0⟩, ⟨0, 0⟩⟩, ⟨1, []⟩, [], []⟩) ∧
    ((c8Tree.rect.right < c8Tree.rect.left ∨ c8Tree.rect.bottom < c8Tree.rect.top) ∧
      c8Tree.rect.contains ⟨⟨1, 1⟩, ⟨1, 1⟩⟩ = false) ∧
    (c8Tree.insert ⟨5, ⟨⟨1, 1⟩, ⟨1, 1⟩⟩⟩ 7 = some c8After ∧
      (c8After.identity_to_point.find? 5 = some (⟨⟨1, 1⟩, ⟨1, 1⟩⟩, none) ∧
       c8After.outside_of_range.find? 5 = some (7, ⟨⟨1, 1⟩, ⟨1, 1⟩⟩))) := by
  refine ⟨?_, ⟨?_, ?_⟩, ⟨?_, ?_⟩⟩
  · exact claim_C8_degenerate_rect_amended.1 1 ⟨⟨1, 0⟩, ⟨1, 0⟩⟩ ⟨⟨0, 0⟩, ⟨0, 0⟩⟩
  · exact Or.inl (by decide)
  · exact claim_C8_degenerate_rect_amended.2.1 c8Tree.rect (Or.inl (by decide))
      ⟨⟨1, 1⟩, ⟨1, 1⟩⟩
  · rfl
  · exact claim_C8_degenerate_rect_amended.2.2 c8Tree ⟨5, ⟨⟨1, 1⟩, ⟨1, 1⟩⟩⟩ 7
      c8After (Or.inl (by decide)) rfl

end QTree

namespace QTree

/-! ## Claim C10: the fixed traversal order of `find_range` -/

/-- The recursive range query at one child slot (the claim's "descend into
the child"): `none` on the `child_at` unwrap panic. -/
def childSeq (fuel : Nat) (items : Items) (rect : Rect) (index : Nat)
    (ctx : FindRangeCtx) (q : Quadrant) : Option (List Found) :=
  match Index.childAt? index q with
  | some c => findRangeInner fuel items (rect.get_child_at q) c ctx
  | none => none

/-- Left-to-right sequencing of the per-quadrant results: the results are
concatenated in exactly the order of the quadrant list. -/
def seqCat (g : Quadrant → Option (List Found)) : List Quadrant → Option (List Found)
  | [] => some []
  | q :: t => (g q).bind (fun r => (seqCat g t).map (fun rs => r ++ rs))

theorem foldl_bind_none (g : Quadrant → Option (List Found)) :
    ∀ (qs : List Quadrant),
      qs.foldl (fun acc q => acc.bind
        (fun res => (g q).map (fun r => res ++ r))) none = none := by
  intro qs
  induction qs with
  | nil => rfl
  | cons q t ih => simpa using ih

/-- The accumulator fold of `find_range_inner` is the left-to-right
concatenation of the per-quadrant results. -/
theorem foldl_bind_append (g : Quadrant → Option (List Found)) :
    ∀ (qs : List Quadrant) (acc : List Found),
      qs.foldl (fun acc q => acc.bind
        (fun res => (g q).map (fun r => res ++ r))) (some acc)
      = (seqCat g qs).map (fun rs => acc ++ rs) := by
  intro qs
  induction qs with
  | nil =>
      intro acc
      simp [seqCat]
  | cons q t ih =>
      intro acc
      rw [List.foldl_cons]
      cases hg : g q with
      | none =>
          simp only [hg, Option.some_bind, Option.map_none', seqCat,
            Option.none_bind]
          exact foldl_bind_none g t
      | some r =>
          simp only [hg, Option.some_bind, Option.map_some', seqCat]
          rw [ih (acc ++ r)]
          cases seqCat g t with
          | none => rfl
          | some rs => simp [List.append_assoc]

/-- The identities produced by the out-of-range scan form a sublist of the
map's keys. -/
theorem filterMap_keys_sublist (ctx : FindRangeCtx) :
    ∀ (m : SMap (Nat × Point)),
      ((m.filterMap (fun e =>
        if ctx.point_in_range e.2.2 then some (e.1, e.2.2, e.2.1) else none)).map
          (fun f => f.1)).Sublist (m.map (fun e => e.1)) := by
  intro m
  induction m with
  | nil => simp
  | cons e t ih =>
      by_cases h : ctx.point_in_range e.2.2 = true
      · simp only [List.filterMap_cons, if_pos h, List.map_cons]
        exact ih.cons₂ e.1
      · simp only [List.filterMap_cons, if_neg h]
        exact ih.cons e.1
  
end QTree

namespace QTree

/-- **C10** (confirmed): `find_range` is deterministic with a fixed
traversal order.  The output is a pure function of the storage vector, the
bounding rectangle and the out-of-range map alone (first conjunct); it is
the tree part followed by the out-of-range scan (second conjunct); at every
`Nested` node the four children are visited in exactly the order
`Quadrant.all = [TopLeft, TopRight, BottomLeft, BottomRight]` with their
results concatenated left to right (third conjunct, via the explicit
sequencing `seqCat`); an `Owned` bucket contributes its entries in stored
order (fourth conjunct); and the out-of-range entries are reported in
strictly ascending identity order whenever the map satisfies the `BTreeMap`
sortedness invariant (fifth conjunct). -/
theorem claim_C10_find_range_fixed_order :
    (∀ (s s2 : QuadTree) (c : Point) (r : Scalar),
      s.items = s2.items → s.rect = s2.rect →
      s.outside_of_range = s2.outside_of_range →
      s.find_range c r = s2.find_range c r) ∧
    (∀ (s : QuadTree) (c : Point) (r : Scalar) (res : List Found),
      s.find_range c r = some res →
      ∃ t, findRangeInner (s.items.len + 1) s.items s.rect Index.ROOT
          (FindRangeCtx.new c r) = some t ∧
        res = t ++ s.outside_of_range.filterMap (fun e =>
          if (FindRangeCtx.new c r).point_in_range e.2.2 then
            some (e.1, e.2.2, e.2.1) else none)) ∧
    (∀ (fuel : Nat) (items : Items) (rect : Rect) (i : Nat)
        (ctx : FindRangeCtx),
      items.read (Index.toIdx i) = some Bucket.Nested →
      ctx.contains_rect rect = true →
      findRangeInner (fuel + 1) items rect i ctx =
        seqCat (childSeq fuel items rect i ctx) Quadrant.all) ∧
    (∀ (fuel : Nat) (items : Items) (rect : Rect) (i : Nat)
        (ctx : FindRangeCtx) (l : List Entry),
      items.read (Index.toIdx i) = some (Bucket.Owned l) →
      ctx.contains_rect rect = true →
      findRangeInner (fuel + 1) items rect i ctx =
        some (l.filterMap (fun e =>
          if ctx.point_in_range e.1.point then
            some (e.1.identity, e.1.point, e.2) else none))) ∧
    (∀ (m : SMap (Nat × Point)) (ctx : FindRangeCtx),
      SMap.Sorted m →
      List.Chain' (fun a b => a < b) ((m.filterMap (fun e =>
        if ctx.point_in_range e.2.2 then some (e.1, e.2.2, e.2.1) else none)).map
          (fun f => f.1))) := by
  refine ⟨?_, ?_, ?_, ?_, ?_⟩
  · intro s s2 c r h1 h2 h3
    simp only [QuadTree.find_range, h1, h2, h3]
  · intro s c r res h
    simp only [QuadTree.find_range] at h
    cases hfr : findRangeInner (s.items.len + 1) s.items s.rect Index.ROOT
        (FindRangeCtx.new c r) with
    | none =>
        rw [hfr] at h
        exact absurd h (by simp)
    | some t =>
        rw [hfr] at h
        injection h with h2
        exact ⟨t, rfl, h2.symm⟩
  · intro fuel items rect i ctx hread hc
    have hnc : (!(ctx.contains_rect rect)) = false := by
      rw [hc]
      rfl
    simp only [findRangeInner, hnc, Bool.false_eq_true, if_false, hread]
    have hstep : (fun (acc : Option (List Found)) (child : Quadrant) =>
        acc.bind (fun res =>
          match Index.childAt? i child with
          | some c =>
              (findRangeInner fuel items (rect.get_child_at child) c ctx).map
                (fun r => res ++ r)
          | none => none))
        = (fun (acc : Option (List Found)) (child : Quadrant) =>
            acc.bind (fun res =>
              (childSeq fuel items rect i ctx child).map (fun r => res ++ r))) := by
      funext acc child
      cases hch : Index.childAt? i child with
      | some c => simp [childSeq, hch]
      | none => simp [childSeq, hch]
    rw [hstep, foldl_bind_append]
    cases seqCat (childSeq fuel items rect i ctx) Quadrant.all with
    | none => rfl
    | some rs => simp
  · intro fuel items rect i ctx l hread hc
    have hnc : (!(ctx.contains_rect rect)) = false := by
      rw [hc]
      rfl
    simp only [findRangeInner, hnc, Bool.false_eq_true, if_false, hread]
  · intro m ctx hs
    have htr : IsTrans (Nat × Nat × Point) (fun a b => a.1 < b.1) :=
      ⟨fun a b c hab hbc => lt_trans hab hbc⟩
    have htr2 : IsTrans Nat (fun a b => a < b) :=
      ⟨fun a b c hab hbc => lt_trans hab hbc⟩
    have hp : (m.map (fun e => e.1)).Pairwise (fun a b => a < b) := by
      rw [List.pairwise_map]
      exact (@List.chain'_iff_pairwise _ _ htr).mp hs
    have hsub := filterMap_keys_sublist ctx m
    exact (@List.chain'_iff_pairwise _ _ htr2).mpr (hp.sublist hsub)

end QTree

namespace QTree

/-- A state agreeing with `c9s` on storage, rectangle and out-of-range map
but differing in capacity and identity index. -/
def c10s2 : QuadTree :=
  ⟨7, Rect.new ⟨0, 0⟩ ⟨1, 1⟩,
   ⟨1, [(0, Bucket.Owned [(⟨8, ⟨⟨1, 1⟩, ⟨1, 1⟩⟩⟩, 9)])]⟩, [], []⟩

/-- A sorted two-entry out-of-range map for the order witness. -/
def c10out : SMap (Nat × Point) :=
  [(3, (9, ⟨⟨1, 1⟩, ⟨1, 1⟩⟩)), (8, (9, ⟨⟨3, 1⟩, ⟨3, 1⟩⟩))]

theorem claim_C10_witness :
    (c9s.items = c10s2.items ∧ c9s.rect = c10s2.rect ∧
      c9s.outside_of_range = c10s2.outside_of_range ∧
      c9s.find_range ⟨⟨1, 1⟩, ⟨1, 1⟩⟩ ⟨0, 0⟩
        = c10s2.find_range ⟨⟨1, 1⟩, ⟨1, 1⟩⟩ ⟨0, 0⟩) ∧
    (c9s.find_range ⟨⟨1, 1⟩, ⟨1, 1⟩⟩ ⟨0, 0⟩
        = some [(8, ⟨⟨1, 1⟩, ⟨1, 1⟩⟩, 9)] ∧
      ∃ t, findRangeInner (c9s.items.len + 1) c9s.items c9s.rect Index.ROOT
          (FindRangeCtx.new ⟨⟨1, 1⟩, ⟨1, 1⟩⟩ ⟨0, 0⟩) = some t ∧
        [(8, (⟨⟨1, 1⟩, ⟨1, 1⟩⟩ : Point), 9)]
          = t ++ c9s.outside_of_range.filterMap (fun e =>
            if (FindRangeCtx.new ⟨⟨1, 1⟩, ⟨1, 1⟩⟩ ⟨0, 0⟩).point_in_range e.2.2 then
              some (e.1, e.2.2, e.2.1) else none)) ∧
    (c7sA.items.read (Index.toIdx 1) = some Bucket.Nested ∧
      (FindRangeCtx.new ⟨⟨1, 1⟩, ⟨1, 1⟩⟩ ⟨1, 0⟩).contains_rect c7sA.rect = true ∧
      findRangeInner 2 c7sA.items c7sA.rect 1
          (FindRangeCtx.new ⟨⟨1, 1⟩, ⟨1, 1⟩⟩ ⟨1, 0⟩) =
        seqCat (childSeq 1 c7sA.items c7sA.rect 1
          (FindRangeCtx.new ⟨⟨1, 1⟩, ⟨1, 1⟩⟩ ⟨1, 0⟩)) Quadrant.all) ∧
    (c9s.items.read (Index.toIdx 1)
        = some (Bucket.Owned [(⟨8, ⟨⟨1, 1⟩, ⟨1, 1⟩⟩⟩, 9)]) ∧
      findRangeInner 1 c9s.items c9s.rect 1
          (FindRangeCtx.new ⟨⟨1, 1⟩, ⟨1, 1⟩⟩ ⟨0, 0⟩) =
        some ([((⟨8, ⟨⟨1, 1⟩, ⟨1, 1⟩⟩⟩ : IdentityPoint), 9)].filterMap (fun e =>
          if (FindRangeCtx.new ⟨⟨1, 1⟩, ⟨1, 1⟩⟩ ⟨0, 0⟩).point_in_range e.1.point then
            some (e.1.identity, e.1.point, e.2) else none))) ∧
    (SMap.Sorted c10out ∧
      List.Chain' (fun a b => a < b) ((c10out.filterMap (fun e =>
        if (FindRangeCtx.new ⟨⟨1, 1⟩, ⟨1, 1⟩⟩ ⟨3, 0⟩).point_in_range e.2.2 then
          some (e.1, e.2.2, e.2.1) else none)).map (fun f => f.1))) := by
  refine ⟨⟨rfl, rfl, rfl, ?_⟩, ⟨?_, ?_⟩, ⟨rfl, ?_, ?_⟩, ⟨rfl, ?_⟩, ⟨?_, ?_⟩⟩
  · exact claim_C10_find_range_fixed_order.1 c9s c10s2 ⟨⟨1, 1⟩, ⟨1, 1⟩⟩ ⟨0, 0⟩
      rfl rfl rfl
  · decide
  · exact claim_C10_find_range_fixed_order.2.1 c9s ⟨⟨1, 1⟩, ⟨1, 1⟩⟩ ⟨0, 0⟩
      [(8, ⟨⟨1, 1⟩, ⟨1, 1⟩⟩, 9)] (by decide)
  · decide
  · exact claim_C10_find_range_fixed_order.2.2.1 1 c7sA.items c7sA.rect 1
      (FindRangeCtx.new ⟨⟨1, 1⟩, ⟨1, 1⟩⟩ ⟨1, 0⟩) rfl (by decide)
  · exact claim_C10_find_range_fixed_order.2.2.2.1 0 c9s.items c9s.rect 1
      (FindRangeCtx.new ⟨⟨1, 1⟩, ⟨1, 1⟩⟩ ⟨0, 0⟩) [(⟨8, ⟨⟨1, 1⟩, ⟨1, 1⟩⟩⟩, 9)]
      rfl (by decide)
  · show List.Chain' (fun a b => a.1 < b.1) c10out
    exact List.chain'_cons.mpr ⟨by norm_num, List.chain'_singleton _⟩
  · exact claim_C10_find_range_fixed_order.2.2.2.2 c10out
      (FindRangeCtx.new ⟨⟨1, 1⟩, ⟨1, 1⟩⟩ ⟨3, 0⟩)
      (show List.Chain' (fun a b => a.1 < b.1) c10out from
        List.chain'_cons.mpr ⟨by norm_num, List.chain'_singleton _⟩)

end QTree
